import Mathlib

/-!
Verification of the core text-processing pipeline of the meeting-notes viewer
(`src/app.js`, first iteration, lines 1-603).

Strings are modelled as `List Char` (JavaScript strings are sequences of code
units; all inputs exercised here are in the basic plane, and `String.data`
is used at the boundary to write literals).  JavaScript `toLowerCase` and the
regex `i` flag are modelled by ASCII case folding, which coincides with the
JavaScript behaviour on the ASCII range used throughout the application.
JavaScript whitespace (`String.trim`, regex `\s`) is modelled by the ASCII
whitespace characters.
-/

set_option maxRecDepth 20000

namespace PowerCycleSummary

/-- Coerce a literal to the `List Char` string model. -/
def txt (s : String) : List Char := s.data

/-- ASCII whitespace, the fragment of JavaScript `\s` / `String.trim` used here. -/
def isJsWs (c : Char) : Bool :=
  c = ' ' || c = '\t' || c = '\n' || c = '\r' || c = '\x0b' || c = '\x0c'

/-- ASCII case folding, modelling JavaScript `toLowerCase` on the ASCII range. -/
def asciiLower (c : Char) : Char :=
  if 'A' ≤ c && c ≤ 'Z' then Char.ofNat (c.toNat + 32) else c

/-- Lowercase a string (JavaScript `String.prototype.toLowerCase`). -/
def lowerStr (s : List Char) : List Char := s.map asciiLower

/-- JavaScript `String.prototype.trim`: drop leading and trailing whitespace. -/
def jsTrim (s : List Char) : List Char :=
  ((s.dropWhile isJsWs).reverse.dropWhile isJsWs).reverse

/-- `hasPre p s` is true when `p` is a prefix of `s` (JS `startsWith`). -/
def hasPre : List Char → List Char → Bool
  | [], _ => true
  | _ :: _, [] => false
  | c :: p, d :: s => c = d && hasPre p s

/-- `occursIn p s` is true when `p` occurs as a contiguous substring of `s`
(JS `String.prototype.includes`). -/
def occursIn (p : List Char) : List Char → Bool
  | [] => hasPre p []
  | d :: s => hasPre p (d :: s) || occursIn p s

/-- JS `String.prototype.endsWith`. -/
def endsWithL (s suf : List Char) : Bool :=
  decide (s.drop (s.length - suf.length) = suf) && decide (suf.length ≤ s.length)

/-- Lowercase alphanumeric test, the character class kept by `normalizeNameKey`. -/
def isLowerAlnum (c : Char) : Bool :=
  ('a' ≤ c && c ≤ 'z') || ('0' ≤ c && c ≤ '9')

/-- `normalizeNameKey` from `src/app.js:54`: lowercase, then delete every
character outside `[a-z0-9]` (deleting each run of `[^a-z0-9]+` is the same
as deleting each such character). -/
def normalizeNameKey (s : List Char) : List Char :=
  (lowerStr s).filter isLowerAlnum

/-- Collapse every run of consecutive dashes to a single dash. -/
def collapseDashes : List Char → List Char
  | [] => []
  | '-' :: '-' :: s => collapseDashes ('-' :: s)
  | c :: s => c :: collapseDashes s

/-- `slugFor` from `src/app.js:80`: lowercase, replace `[^a-z0-9]+` runs by a
single dash, trim leading and trailing dashes, cap at 80 characters. -/
def slugFor (s : List Char) : List Char :=
  let dashed := collapseDashes ((lowerStr s).map (fun c => if isLowerAlnum c then c else '-'))
  (((dashed.dropWhile (· = '-')).reverse.dropWhile (· = '-')).reverse).take 80

/-- `normalizeQuery` from `src/app.js:50`: trim and lowercase. -/
def normalizeQuery (q : List Char) : List Char := lowerStr (jsTrim q)

/-! ## Note parser (`parseNoteToBlocks`, `src/app.js:110-169`) -/

/-- A parsed section block (`{type:"section", title, items, paragraphs, id}`).
The `type` tag is constant in the source and omitted. -/
structure NSection where
  title : List Char
  items : List (List Char)
  paragraphs : List (List Char)
  id : List Char
deriving DecidableEq, Repr

/-- An open section being accumulated during the line scan (its `id` is still
`null`; `flushSection` always finds it unset and computes it). -/
structure PartSec where
  title : List Char
  items : List (List Char)
  paragraphs : List (List Char)
deriving DecidableEq, Repr

/-- `line.replace(/\t/g, "    ")`: each tab becomes four spaces. -/
def expandTabs (s : List Char) : List Char :=
  s.flatMap (fun c => if c = '\t' then txt ("    ") else [c])

/-- Split on `/\r?\n/` with an accumulator of the current line (reversed):
a line break is a `\n`, optionally preceded by a `\r` that is consumed with
it; a lone `\r` is ordinary text. -/
def splitLinesAux (acc : List Char) : List Char → List (List Char)
  | [] => [acc.reverse]
  | '\r' :: '\n' :: rest => acc.reverse :: splitLinesAux [] rest
  | '\n' :: rest => acc.reverse :: splitLinesAux [] rest
  | c :: rest => splitLinesAux (c :: acc) rest

/-- `text.split(/\r?\n/)` from `src/app.js:111`. -/
def splitLinesJs (s : List Char) : List (List Char) := splitLinesAux [] s

/-- `flushSection` from `src/app.js:115`: close the open section, assigning it
the id `slugFor(filename + "-" + (title || "notes"))`, and push it. -/
def flushSection (filename : List Char) (blocks : List NSection) :
    Option PartSec → List NSection
  | none => blocks
  | some s =>
    let base := if s.title = [] then txt ("notes") else s.title
    blocks ++ [⟨s.title, s.items, s.paragraphs, slugFor (filename ++ txt ("-") ++ base)⟩]

/-- The line-scanning loop of `parseNoteToBlocks` (`src/app.js:125-162`). -/
def parseLines (filename : List Char) :
    List (List Char) → List NSection → Option PartSec → List NSection
  | [], blocks, cur => flushSection filename blocks cur
  | rawLine :: rest, blocks, cur =>
    let trimmed := jsTrim (expandTabs rawLine)
    if trimmed = [] then
      parseLines filename rest blocks cur
    else if endsWithL trimmed (txt (":")) && !hasPre (txt ("-")) trimmed then
      parseLines filename rest (flushSection filename blocks cur)
        (some ⟨trimmed.dropLast, [], []⟩)
    else if hasPre (txt ("- ")) trimmed then
      match cur with
      | some s => parseLines filename rest blocks (some ⟨s.title, s.items ++ [trimmed.drop 2], s.paragraphs⟩)
      | none => parseLines filename rest blocks (some ⟨txt ("Notes"), [trimmed.drop 2], []⟩)
    else
      match cur with
      | some s => parseLines filename rest blocks (some ⟨s.title, s.items, s.paragraphs ++ [trimmed]⟩)
      | none => parseLines filename rest blocks (some ⟨txt ("Notes"), [], [trimmed]⟩)

/-- `parseNoteToBlocks` from `src/app.js:110`: scan the lines, then substitute
a synthetic empty "Notes" section when no section was produced. -/
def parseNoteToBlocks (text filename : List Char) : List NSection :=
  let blocks := parseLines filename (splitLinesJs text) [] none
  if blocks = [] then
    [⟨txt ("Notes"), [], [], slugFor (filename ++ txt ("-notes"))⟩]
  else blocks

/-! ## Section-id law and parser invariants (claims C3, C4, C5) -/

/-- The deterministic id law actually implemented by `flushSection`: every
section's id is the slug of `filename-title`, with the title defaulting to
"notes" when empty. -/
def SecIdOk (filename : List Char) (b : NSection) : Prop :=
  b.id = slugFor (filename ++ txt ("-") ++ (if b.title = [] then txt ("notes") else b.title))

theorem slugFor_lower_congr (a b : List Char) (h : lowerStr a = lowerStr b) :
    slugFor a = slugFor b := by
  unfold slugFor
  rw [h]

theorem flushSection_id_inv (filename : List Char) (blocks : List NSection)
    (cur : Option PartSec) (h : ∀ b ∈ blocks, SecIdOk filename b) :
    ∀ b ∈ flushSection filename blocks cur, SecIdOk filename b := by
  cases cur with
  | none => exact h
  | some s =>
    intro b hb
    simp only [flushSection, List.mem_append, List.mem_singleton] at hb
    rcases hb with hb | hb
    · exact h b hb
    · subst hb
      simp [SecIdOk]

theorem parseLines_id_inv (filename : List Char) :
    ∀ (lines : List (List Char)) (blocks : List NSection) (cur : Option PartSec),
      (∀ b ∈ blocks, SecIdOk filename b) →
      ∀ b ∈ parseLines filename lines blocks cur, SecIdOk filename b := by
  intro lines
  induction lines with
  | nil =>
    intro blocks cur h
    exact flushSection_id_inv filename blocks cur h
  | cons l rest ih =>
    intro blocks cur h
    simp only [parseLines]
    split
    · exact ih blocks cur h
    · split
      · exact ih _ _ (flushSection_id_inv filename blocks cur h)
      · split
        · cases cur with
          | some s => exact ih blocks _ h
          | none => exact ih blocks _ h
        · cases cur with
          | some s => exact ih blocks _ h
          | none => exact ih blocks _ h

/-- C3 (amended): every section id produced by the parser equals the slug of
`filename-title` (title defaulting to "notes"); ids are a deterministic
function of the filename and title, not unique per occurrence. -/
theorem parse_section_id_law (text filename : List Char) :
    ∀ b ∈ parseNoteToBlocks text filename, SecIdOk filename b := by
  intro b hb
  simp only [parseNoteToBlocks] at hb
  split at hb
  · simp only [List.mem_singleton] at hb
    subst hb
    simp only [SecIdOk]
    rw [if_neg (by decide)]
    apply slugFor_lower_congr
    simp only [lowerStr, List.map_append, List.append_assoc]
    congr 1
  · exact parseLines_id_inv filename (splitLinesJs text) [] none (by simp) b hb

/-- C3 (counterexample): two sections of the same note with identical titles
receive identical ids, so section ids are not pairwise distinct. -/
theorem parse_section_id_not_unique :
    ¬ (((parseNoteToBlocks (txt ("Status:\nStatus:")) (txt ("f.txt"))).map NSection.id).Nodup) := by
  decide

/-- C3 (witness): the id law evaluated on a concrete parse. -/
theorem parse_section_id_law_witness :
    SecIdOk (txt ("f.txt"))
      ⟨txt ("Status"), [], [], txt ("f-txt-status")⟩ :=
  parse_section_id_law (txt ("Status:")) (txt ("f.txt"))
    ⟨txt ("Status"), [], [], txt ("f-txt-status")⟩ (by decide)

theorem splitLinesAux_no_nl (l : List Char) : ∀ acc, (∀ c ∈ l, c ≠ '\n') →
    splitLinesAux acc l = [acc.reverse ++ l] := by
  induction l with
  | nil =>
    intro acc _
    simp [splitLinesAux]
  | cons c rest ih =>
    intro acc h
    have hc : c ≠ '\n' := h c (by simp)
    have hr : ∀ x ∈ rest, x ≠ '\n' := fun x hx => h x (by simp [hx])
    rw [splitLinesAux.eq_def]
    split
    · simp_all
    · rename_i heq
      exfalso
      rw [List.cons_eq_cons] at heq
      have : '\n' ∈ rest := by
        rw [heq.2]
        simp
      exact hr '\n' this rfl
    · exact absurd (List.cons_eq_cons.mp (by assumption)).1 hc
    · rename_i heq2
      obtain ⟨h1, h2⟩ := List.cons_eq_cons.mp heq2
      subst h1
      subst h2
      rw [ih (c :: acc) hr]
      simp

theorem splitLinesJs_single (l : List Char) (h : ∀ c ∈ l, c ≠ '\n') :
    splitLinesJs l = [l] := by
  rw [splitLinesJs, splitLinesAux_no_nl l [] h]
  simp

/-- C4 (amended): a trimmed non-blank line is classified as a heading exactly
when it ends with ":" and does not begin with "-" (a single dash, not the
bullet marker "- "); and the line "Status:" yields a single Section titled
"Status" with no bullets and no paragraphs. -/
theorem heading_classification (l filename : List Char)
    (hnl : ∀ c ∈ l, c ≠ '\n')
    (hne : jsTrim (expandTabs l) ≠ []) :
    (((parseNoteToBlocks l filename).map (fun b => (b.title, b.items, b.paragraphs)) =
        [((jsTrim (expandTabs l)).dropLast, [], [])]) ↔
      (endsWithL (jsTrim (expandTabs l)) (txt (":")) = true ∧
        hasPre (txt ("-")) (jsTrim (expandTabs l)) = false)) ∧
    (parseNoteToBlocks (txt ("Status:")) filename).map
        (fun b => (b.title, b.items, b.paragraphs)) =
      [(txt ("Status"), [], [])] := by
  constructor
  · simp only [parseNoteToBlocks, splitLinesJs_single l hnl, parseLines]
    rw [if_neg hne]
    by_cases hhead :
        (endsWithL (jsTrim (expandTabs l)) (txt (":")) &&
          !hasPre (txt ("-")) (jsTrim (expandTabs l))) = true
    · rw [if_pos hhead]
      simp only [parseLines, flushSection]
      rw [if_neg (by simp)]
      simp only [List.nil_append, List.map_cons, List.map_nil]
      rw [Bool.and_eq_true, Bool.not_eq_true'] at hhead
      simp [hhead.1, hhead.2]
    · rw [if_neg hhead]
      have hrhs : ¬ (endsWithL (jsTrim (expandTabs l)) (txt (":")) = true ∧
          hasPre (txt ("-")) (jsTrim (expandTabs l)) = false) := by
        intro hand
        exact hhead (by simp [Bool.and_eq_true, Bool.not_eq_true', hand.1, hand.2])
      apply iff_of_false _ hrhs
      split
      · simp only [parseLines, flushSection]
        rw [if_neg (by simp)]
        intro habs
        simp only [List.nil_append, List.map_cons, List.map_nil, List.cons_eq_cons] at habs
        have := habs.1
        simp at this
      · simp only [parseLines, flushSection]
        rw [if_neg (by simp)]
        intro habs
        simp only [List.nil_append, List.map_cons, List.map_nil, List.cons_eq_cons] at habs
        have := habs.1
        simp at this
  · rfl

/-- C4 (counterexample): the trimmed line "-x:" ends with ":" and does not
begin with the bullet marker "- ", so the claim classes it as a heading; the
parser instead treats it as a paragraph inside a synthetic "Notes" section,
because the code tests `startsWith("-")`, not `startsWith("- ")`. -/
theorem heading_dash_colon_counterexample :
    endsWithL (jsTrim (expandTabs (txt ("-x:")))) (txt (":")) = true ∧
    hasPre (txt ("- ")) (jsTrim (expandTabs (txt ("-x:")))) = false ∧
    (parseNoteToBlocks (txt ("-x:")) (txt ("f.txt"))).map
        (fun b => (b.title, b.items, b.paragraphs)) =
      [(txt ("Notes"), [], [txt ("-x:")])] := by
  decide

/-- C4 (witness): the amended classification evaluated on the line "Team:". -/
theorem heading_classification_witness :
    (((parseNoteToBlocks (txt ("Team:")) (txt ("g.txt"))).map
        (fun b => (b.title, b.items, b.paragraphs)) =
      [((jsTrim (expandTabs (txt ("Team:")))).dropLast, [], [])]) ↔
      (endsWithL (jsTrim (expandTabs (txt ("Team:")))) (txt (":")) = true ∧
        hasPre (txt ("-")) (jsTrim (expandTabs (txt ("Team:")))) = false)) ∧
    (parseNoteToBlocks (txt ("Status:")) (txt ("g.txt"))).map
        (fun b => (b.title, b.items, b.paragraphs)) =
      [(txt ("Status"), [], [])] :=
  heading_classification (txt ("Team:")) (txt ("g.txt")) (by decide) (by decide)

/-- C5 (confirmed): `parse` always returns a non-empty section sequence; the
synthetic "Notes" section is substituted when the scan yields none. -/
theorem parse_nonempty (text filename : List Char) :
    parseNoteToBlocks text filename ≠ [] := by
  simp only [parseNoteToBlocks]
  split
  · simp
  · assumption

/-! ## Date-key ordering and stable descending sort

The source sorts with `(a, b) => b.dateKey.localeCompare(a.dateKey)` under a
stable `Array.prototype.sort`.  `localeCompare` is modelled as code-unit
comparison, which agrees with locale ordering on the digit/dash date keys
(and arbitrary keys only affect the order among themselves).  A stable sort
with a total comparator has a unique result, modelled by insertion sort. -/

/-- Code-unit lexicographic "less than" on strings. -/
def ltStr : List Char → List Char → Bool
  | [], [] => false
  | [], _ :: _ => true
  | _ :: _, [] => false
  | c :: cs, d :: ds =>
    if c.toNat < d.toNat then true
    else if d.toNat < c.toNat then false
    else ltStr cs ds

theorem ltStr_asymm : ∀ a b : List Char, ltStr a b = true → ltStr b a = false := by
  intro a
  induction a with
  | nil =>
    intro b h
    cases b with
    | nil => simp [ltStr] at h
    | cons d ds => simp [ltStr]
  | cons c cs ih =>
    intro b h
    cases b with
    | nil => simp [ltStr] at h
    | cons d ds =>
      simp only [ltStr] at h ⊢
      split_ifs at h ⊢ with h1 h2 h3
      all_goals first
        | rfl
        | omega
        | exact ih ds h

theorem ltStr_neg_trans :
    ∀ a b c : List Char, ltStr a b = false → ltStr b c = false → ltStr a c = false := by
  intro a
  induction a with
  | nil =>
    intro b c h1 h2
    cases b with
    | nil =>
      cases c with
      | nil => rfl
      | cons z zs => simp [ltStr] at h2
    | cons y ys => simp [ltStr] at h1
  | cons x xs ih =>
    intro b c h1 h2
    cases b with
    | nil =>
      cases c with
      | nil => rfl
      | cons z zs => simp [ltStr] at h2
    | cons y ys =>
      cases c with
      | nil => rfl
      | cons z zs =>
        simp only [ltStr] at h1 h2 ⊢
        split_ifs at h1 h2 ⊢ with h3 h4 h5 h6 h7 h8
        all_goals first
          | rfl
          | omega
          | exact ih ys zs h1 h2

/-- Insert one element into a list sorted descending by `key`, placing it
after earlier elements with an equal key (the stable position). -/
def insertByKeyDesc (key : α → List Char) (p : α) : List α → List α
  | [] => [p]
  | q :: qs =>
    if ltStr (key p) (key q) then q :: insertByKeyDesc key p qs
    else p :: q :: qs

/-- Stable descending sort by `key` (the unique result of a stable sort with
the source's date-key comparator). -/
def sortByKeyDesc (key : α → List Char) (l : List α) : List α :=
  l.foldr (insertByKeyDesc key) []

theorem insertByKeyDesc_perm (key : α → List Char) (p : α) (l : List α) :
    List.Perm (insertByKeyDesc key p l) (p :: l) := by
  induction l with
  | nil => rfl
  | cons q qs ih =>
    simp only [insertByKeyDesc]
    split
    · exact (ih.cons q).trans (List.Perm.swap p q qs)
    · rfl

theorem sortByKeyDesc_perm (key : α → List Char) (l : List α) :
    List.Perm (sortByKeyDesc key l) l := by
  induction l with
  | nil => rfl
  | cons x xs ih =>
    simp only [sortByKeyDesc, List.foldr_cons]
    exact (insertByKeyDesc_perm key x _).trans (ih.cons x)

theorem insertByKeyDesc_pairwise (key : α → List Char) (p : α) (l : List α)
    (h : l.Pairwise (fun a b => ltStr (key a) (key b) = false)) :
    (insertByKeyDesc key p l).Pairwise (fun a b => ltStr (key a) (key b) = false) := by
  induction l with
  | nil => simp [insertByKeyDesc]
  | cons q qs ih =>
    rw [List.pairwise_cons] at h
    simp only [insertByKeyDesc]
    split
    · rename_i hlt
      rw [List.pairwise_cons]
      refine ⟨?_, ih h.2⟩
      intro x hx
      have hx2 := (insertByKeyDesc_perm key p qs).mem_iff.mp hx
      rcases List.mem_cons.mp hx2 with hx3 | hx3
      · subst hx3
        exact ltStr_asymm _ _ hlt
      · exact h.1 x hx3
    · rename_i hge
      rw [Bool.not_eq_true] at hge
      rw [List.pairwise_cons]
      constructor
      · intro x hx
        rcases List.mem_cons.mp hx with hx | hx
        · subst hx
          exact hge
        · exact ltStr_neg_trans _ _ _ hge (h.1 x hx)
      · rw [List.pairwise_cons]
        exact h


theorem sortByKeyDesc_pairwise (key : α → List Char) (l : List α) :
    (sortByKeyDesc key l).Pairwise (fun a b => ltStr (key a) (key b) = false) := by
  induction l with
  | nil => simp [sortByKeyDesc]
  | cons x xs ih =>
    simp only [sortByKeyDesc, List.foldr_cons]
    exact insertByKeyDesc_pairwise key x _ ih

/-! ## Power-cycle lookup (`findPowerCyclesForGeneratorKey`, `src/app.js:327-357`)

The power-cycle table is a JavaScript object keyed by normalized site name;
it is modelled as an association list in insertion order with the events of
each key as the value. -/

/-- A power-cycle event `{dateKey, noteId, filename, raw}` (`src/app.js:311`). -/
structure PCEvent where
  dateKey : List Char
  noteId : List Char
  filename : List Char
  raw : List Char
deriving DecidableEq, Repr

/-- Object property access `m[k]`, yielding `[]` for a missing key. -/
def lookupVal (m : List (List Char × List α)) (k : List Char) : List α :=
  match m with
  | [] => []
  | (k2, vs) :: rest => if k2 = k then vs else lookupVal rest k

/-- The fallback scan of `src/app.js:336-343`: walk the table keys in order,
skip the empty key, and collect the events of every key `k` with
`k.includes(genKey) || genKey.includes(k)`. -/
def fallbackMatches (m : List (List Char × List PCEvent)) (genKey : List Char) :
    List PCEvent :=
  m.foldl (fun acc kv =>
    if kv.1 = [] then acc
    else if occursIn genKey kv.1 || occursIn kv.1 genKey then acc ++ kv.2
    else acc) []

/-- The dedup loop of `src/app.js:346-352`: keep an event only when its date
key has not been seen yet. -/
def dedupeByDate : List PCEvent → List (List Char) → List PCEvent
  | [], _ => []
  | p :: ps, seen =>
    if p.dateKey ∈ seen then dedupeByDate ps seen
    else p :: dedupeByDate ps (p.dateKey :: seen)

/-- `findPowerCyclesForGeneratorKey` from `src/app.js:327`: exact key match,
else the containment fallback; dedupe by date key; sort descending. -/
def findPowerCyclesForGeneratorKey (m : List (List Char × List PCEvent))
    (genKey : List Char) : List PCEvent :=
  let matches1 := lookupVal m genKey
  let matches2 := if matches1 = [] then fallbackMatches m genKey else matches1
  sortByKeyDesc PCEvent.dateKey (dedupeByDate matches2 [])

/-! Specification-side formulations for the lookup. -/

/-- The non-empty table keys in bidirectional containment with `genKey`. -/
def bidirKeys (m : List (List Char × List PCEvent)) (genKey : List Char) :
    List (List Char × List PCEvent) :=
  m.filter (fun kv => kv.1 ≠ [] && (occursIn genKey kv.1 || occursIn kv.1 genKey))

/-- The merged match list described by the amended claim: the exact bucket
when it is non-empty, otherwise all events of the bidirectionally matching
non-empty keys in table order. -/
def c1Merged (m : List (List Char × List PCEvent)) (genKey : List Char) :
    List PCEvent :=
  if lookupVal m genKey = [] then (bidirKeys m genKey).flatMap Prod.snd
  else lookupVal m genKey

/-- The merged match list asserted by the claim as frozen, which includes the
events of every containment-matching key, the empty key included. -/
def c1MergedOrig (m : List (List Char × List PCEvent)) (genKey : List Char) :
    List PCEvent :=
  if lookupVal m genKey = [] then
    (m.filter (fun kv => occursIn genKey kv.1 || occursIn kv.1 genKey)).flatMap Prod.snd
  else lookupVal m genKey

/-- Deduplication as the specification phrases it: fold left, appending an
event only when its date key is absent from the output built so far. -/
def dedupSpecGo (out : List PCEvent) : List PCEvent → List PCEvent
  | [] => out
  | p :: ps =>
    if p.dateKey ∈ out.map PCEvent.dateKey then dedupSpecGo out ps
    else dedupSpecGo (out ++ [p]) ps

/-- Keep the first event encountered for each date key. -/
def dedupSpec (l : List PCEvent) : List PCEvent := dedupSpecGo [] l

theorem fallbackMatches_eq_aux (g : List Char) :
    ∀ (m : List (List Char × List PCEvent)) (acc : List PCEvent),
      m.foldl (fun acc kv =>
        if kv.1 = [] then acc
        else if occursIn g kv.1 || occursIn kv.1 g then acc ++ kv.2
        else acc) acc = acc ++ (bidirKeys m g).flatMap Prod.snd := by
  intro m
  induction m with
  | nil =>
    intro acc
    simp [bidirKeys]
  | cons kv rest ih =>
    intro acc
    simp only [List.foldl_cons, bidirKeys, List.filter_cons]
    by_cases h1 : kv.1 = []
    · rw [if_pos h1]
      have : (kv.1 ≠ [] && (occursIn g kv.1 || occursIn kv.1 g)) = false := by
        simp [h1]
      rw [this]
      exact ih acc
    · rw [if_neg h1]
      by_cases h2 : (occursIn g kv.1 || occursIn kv.1 g) = true
      · rw [if_pos h2]
        have : (kv.1 ≠ [] && (occursIn g kv.1 || occursIn kv.1 g)) = true := by
          simp [h1, h2]
        rw [this]
        rw [ih (acc ++ kv.2)]
        simp [bidirKeys, List.append_assoc]
      · rw [if_neg h2]
        have : (kv.1 ≠ [] && (occursIn g kv.1 || occursIn kv.1 g)) = false := by
          simp only [Bool.and_eq_false_iff]
          right
          simpa using h2
        rw [this]
        exact ih acc

theorem fallbackMatches_eq (m : List (List Char × List PCEvent)) (g : List Char) :
    fallbackMatches m g = (bidirKeys m g).flatMap Prod.snd := by
  have := fallbackMatches_eq_aux g m []
  simpa [fallbackMatches] using this

theorem dedupeByDate_seen_congr :
    ∀ (l : List PCEvent) (seen seen2 : List (List Char)),
      (∀ d, d ∈ seen ↔ d ∈ seen2) →
      dedupeByDate l seen = dedupeByDate l seen2 := by
  intro l
  induction l with
  | nil => intro seen seen2 _; rfl
  | cons p ps ih =>
    intro seen seen2 hiff
    simp only [dedupeByDate]
    by_cases h : p.dateKey ∈ seen
    · rw [if_pos h, if_pos ((hiff p.dateKey).mp h), ih seen seen2 hiff]
    · rw [if_neg h, if_neg (fun h2 => h ((hiff p.dateKey).mpr h2))]
      rw [ih (p.dateKey :: seen) (p.dateKey :: seen2) (by
        intro d
        simp only [List.mem_cons]
        constructor
        · rintro (rfl | hd)
          · exact Or.inl rfl
          · exact Or.inr ((hiff d).mp hd)
        · rintro (rfl | hd)
          · exact Or.inl rfl
          · exact Or.inr ((hiff d).mpr hd))]

theorem dedupSpecGo_eq :
    ∀ (l : List PCEvent) (out : List PCEvent),
      dedupSpecGo out l = out ++ dedupeByDate l (out.map PCEvent.dateKey) := by
  intro l
  induction l with
  | nil => intro out; simp [dedupSpecGo, dedupeByDate]
  | cons p ps ih =>
    intro out
    simp only [dedupSpecGo, dedupeByDate]
    by_cases h : p.dateKey ∈ out.map PCEvent.dateKey
    · rw [if_pos h, if_pos h]
      exact ih out
    · rw [if_neg h, if_neg h]
      rw [ih (out ++ [p])]
      rw [dedupeByDate_seen_congr ps ((out ++ [p]).map PCEvent.dateKey)
        (p.dateKey :: out.map PCEvent.dateKey) (by
          intro d
          simp [List.mem_append, or_comm])]
      simp [List.append_assoc]

theorem dedupSpec_eq (l : List PCEvent) : dedupSpec l = dedupeByDate l [] := by
  have := dedupSpecGo_eq l []
  simpa [dedupSpec] using this

theorem dedupeByDate_mem_date :
    ∀ (l : List PCEvent) (seen : List (List Char)) (d : List Char),
      (d ∈ (dedupeByDate l seen).map PCEvent.dateKey ↔
        d ∈ l.map PCEvent.dateKey ∧ d ∉ seen) := by
  intro l
  induction l with
  | nil => intro seen d; simp [dedupeByDate]
  | cons p ps ih =>
    intro seen d
    simp only [dedupeByDate]
    by_cases h : p.dateKey ∈ seen
    · rw [if_pos h, ih seen d]
      simp only [List.map_cons, List.mem_cons]
      constructor
      · rintro ⟨hd, hs⟩
        exact ⟨Or.inr hd, hs⟩
      · rintro ⟨rfl | hd, hs⟩
        · exact absurd h hs
        · exact ⟨hd, hs⟩
    · rw [if_neg h]
      simp only [List.map_cons, List.mem_cons, ih (p.dateKey :: seen) d]
      constructor
      · rintro (rfl | ⟨hd, hs⟩)
        · exact ⟨Or.inl rfl, h⟩
        · exact ⟨Or.inr hd, fun h2 => hs (Or.inr h2)⟩
      · rintro ⟨rfl | hd, hs⟩
        · exact Or.inl rfl
        · by_cases hd2 : d = p.dateKey
          · exact Or.inl hd2
          · refine Or.inr ⟨hd, ?_⟩
            rintro (h4 | h4)
            · exact hd2 h4
            · exact hs h4

theorem dedupeByDate_nodup :
    ∀ (l : List PCEvent) (seen : List (List Char)),
      ((dedupeByDate l seen).map PCEvent.dateKey).Nodup ∧
      (∀ d ∈ (dedupeByDate l seen).map PCEvent.dateKey, d ∉ seen) := by
  intro l
  induction l with
  | nil => intro seen; simp [dedupeByDate]
  | cons p ps ih =>
    intro seen
    simp only [dedupeByDate]
    by_cases h : p.dateKey ∈ seen
    · rw [if_pos h]
      exact ih seen
    · rw [if_neg h]
      obtain ⟨hnd, hns⟩ := ih (p.dateKey :: seen)
      refine ⟨?_, ?_⟩
      · simp only [List.map_cons, List.nodup_cons]
        exact ⟨fun hmem => hns p.dateKey hmem (List.mem_cons_self _ _), hnd⟩
      · intro d hd
        simp only [List.map_cons, List.mem_cons] at hd
        rcases hd with rfl | hd
        · exact h
        · exact fun h2 => hns d hd (List.mem_cons_of_mem _ h2)

theorem dedupeByDate_subset :
    ∀ (l : List PCEvent) (seen : List (List Char)) (e : PCEvent),
      e ∈ dedupeByDate l seen → e ∈ l := by
  intro l
  induction l with
  | nil => intro seen e h; simp [dedupeByDate] at h
  | cons p ps ih =>
    intro seen e h
    simp only [dedupeByDate] at h
    by_cases h2 : p.dateKey ∈ seen
    · rw [if_pos h2] at h
      exact List.mem_cons_of_mem _ (ih seen e h)
    · rw [if_neg h2] at h
      rcases List.mem_cons.mp h with rfl | h3
      · exact List.mem_cons_self _ _
      · exact List.mem_cons_of_mem _ (ih _ e h3)

/-- The descending-date relation established by the sort. -/
def DateDesc (a b : PCEvent) : Prop := ltStr a.dateKey b.dateKey = false

/-- C1 (amended): the lookup merges the exact bucket when it is non-empty and
otherwise every bidirectionally containment-matching NON-EMPTY key (the code
skips the empty key); the merge is deduplicated by date key keeping the first
occurrence encountered, sorted descending by date key, and the fallback is
skipped entirely when the exact pass yields events. -/
theorem find_power_cycles_law (m : List (List Char × List PCEvent)) (g : List Char) :
    findPowerCyclesForGeneratorKey m g =
      sortByKeyDesc PCEvent.dateKey (dedupSpec (c1Merged m g)) ∧
    (findPowerCyclesForGeneratorKey m g).Pairwise DateDesc ∧
    ((findPowerCyclesForGeneratorKey m g).map PCEvent.dateKey).Nodup ∧
    (lookupVal m g ≠ [] →
      ∀ e ∈ findPowerCyclesForGeneratorKey m g, e ∈ lookupVal m g) := by
  have hmain : findPowerCyclesForGeneratorKey m g =
      sortByKeyDesc PCEvent.dateKey (dedupSpec (c1Merged m g)) := by
    simp only [findPowerCyclesForGeneratorKey, c1Merged, dedupSpec_eq]
    by_cases h : lookupVal m g = []
    · rw [if_pos h, if_pos h, fallbackMatches_eq]
    · rw [if_neg h, if_neg h]
  refine ⟨hmain, ?_, ?_, ?_⟩
  · exact sortByKeyDesc_pairwise PCEvent.dateKey _
  · have hperm := (sortByKeyDesc_perm PCEvent.dateKey
      (dedupeByDate (if lookupVal m g = [] then fallbackMatches m g else lookupVal m g) [])).map
      PCEvent.dateKey
    have hnd := (dedupeByDate_nodup
      (if lookupVal m g = [] then fallbackMatches m g else lookupVal m g) []).1
    have hnd2 := hperm.symm.nodup hnd
    simpa [findPowerCyclesForGeneratorKey] using hnd2
  · intro hne e he
    simp only [findPowerCyclesForGeneratorKey] at he
    rw [if_neg hne] at he
    have he2 := (sortByKeyDesc_perm PCEvent.dateKey _).mem_iff.mp he
    exact dedupeByDate_subset (lookupVal m g) [] e he2

/-- An event whose raw site label normalizes to the empty key, as produced by
a "Power Cycle" bullet consisting only of punctuation. -/
def evA : PCEvent :=
  ⟨txt ("2024-01-01"), txt ("n1"), txt ("2024-01-01.txt"), txt ("***")⟩

/-- A table holding one bucket under the empty key. -/
def pcTableEmptyKey : List (List Char × List PCEvent) := [([], [evA])]

/-- C1 (counterexample): with the table keyed only by the empty string, the
empty key is in bidirectional containment with the generator key "x"
(`"x".includes("")` is true), so the claim as frozen requires its events in
the fallback result; the code skips the empty key and returns nothing. -/
theorem find_power_cycles_claim_false :
    occursIn ([] : List Char) (txt ("x")) = true ∧
    findPowerCyclesForGeneratorKey pcTableEmptyKey (txt ("x")) ≠
      sortByKeyDesc PCEvent.dateKey (dedupSpec (c1MergedOrig pcTableEmptyKey (txt ("x")))) := by
  decide

def evB : PCEvent :=
  ⟨txt ("2024-02-01"), txt ("n2"), txt ("2024-02-01.txt"), txt ("Gen A")⟩

def evC : PCEvent :=
  ⟨txt ("2024-03-05"), txt ("n3"), txt ("2024-03-05.txt"), txt ("Gen A")⟩

def pcTableTwoKeys : List (List Char × List PCEvent) :=
  [(txt ("gena"), [evB, evC]), (txt ("siteb"), [evB])]

/-- C1 (witness): the lookup law evaluated on a concrete table with an exact
match present, the exact-match hypothesis discharged concretely. -/
theorem find_power_cycles_law_witness :
    findPowerCyclesForGeneratorKey pcTableTwoKeys (txt ("gena")) =
      sortByKeyDesc PCEvent.dateKey (dedupSpec (c1Merged pcTableTwoKeys (txt ("gena")))) ∧
    evC ∈ lookupVal pcTableTwoKeys (txt ("gena")) := by
  have h := find_power_cycles_law pcTableTwoKeys (txt ("gena"))
  refine ⟨h.1, ?_⟩
  exact h.2.2.2 (by decide) evC (by decide)

/-- C10 (confirmed): for the empty generator key over a table with no
empty-string key, the fallback containment scan matches every key, so the
lookup returns one event per distinct date key of the entire table, sorted
descending by date key. -/
theorem find_power_cycles_empty_genkey (m : List (List Char × List PCEvent))
    (h : ∀ kv ∈ m, kv.1 ≠ ([] : List Char)) :
    (∀ d, d ∈ (findPowerCyclesForGeneratorKey m []).map PCEvent.dateKey ↔
        d ∈ (m.flatMap Prod.snd).map PCEvent.dateKey) ∧
    ((findPowerCyclesForGeneratorKey m []).map PCEvent.dateKey).Nodup ∧
    (findPowerCyclesForGeneratorKey m []).Pairwise DateDesc ∧
    (∀ e ∈ findPowerCyclesForGeneratorKey m [], e ∈ m.flatMap Prod.snd) := by
  have hlook : lookupVal m [] = ([] : List PCEvent) := by
    induction m with
    | nil => rfl
    | cons kv rest ih =>
      have h1 : kv.1 ≠ ([] : List Char) := h kv (List.mem_cons_self _ _)
      simp only [lookupVal]
      rw [if_neg h1]
      exact ih (fun kv2 hkv2 => h kv2 (List.mem_cons_of_mem _ hkv2))
  have hbidir : bidirKeys m [] = m := by
    rw [bidirKeys, List.filter_eq_self]
    intro kv hkv
    have h1 : kv.1 ≠ ([] : List Char) := h kv hkv
    have h2 : occursIn ([] : List Char) kv.1 = true := by
      cases kv.1 with
      | nil => rfl
      | cons c cs => simp [occursIn, hasPre]
    simp [h1, h2]
  have hall : (if lookupVal m [] = [] then fallbackMatches m [] else lookupVal m []) =
      m.flatMap Prod.snd := by
    rw [if_pos hlook, fallbackMatches_eq, hbidir]
  have hfind : findPowerCyclesForGeneratorKey m [] =
      sortByKeyDesc PCEvent.dateKey (dedupeByDate (m.flatMap Prod.snd) []) := by
    simp only [findPowerCyclesForGeneratorKey]
    rw [hall]
  refine ⟨?_, ?_, ?_, ?_⟩
  · intro d
    rw [hfind]
    have hperm := ((sortByKeyDesc_perm PCEvent.dateKey
      (dedupeByDate (m.flatMap Prod.snd) [])).map PCEvent.dateKey).mem_iff (a := d)
    rw [hperm, dedupeByDate_mem_date]
    simp
  · rw [hfind]
    have hperm := (sortByKeyDesc_perm PCEvent.dateKey
      (dedupeByDate (m.flatMap Prod.snd) [])).map PCEvent.dateKey
    exact hperm.symm.nodup (dedupeByDate_nodup (m.flatMap Prod.snd) []).1
  · rw [hfind]
    exact sortByKeyDesc_pairwise PCEvent.dateKey _
  · intro e he
    rw [hfind] at he
    have he2 := (sortByKeyDesc_perm PCEvent.dateKey _).mem_iff.mp he
    exact dedupeByDate_subset _ [] e he2

/-- C10 (witness): the empty-generator-key law evaluated on a concrete
two-key table, its no-empty-key hypothesis discharged concretely. -/
theorem find_power_cycles_empty_genkey_witness :
    ((findPowerCyclesForGeneratorKey pcTableTwoKeys []).map PCEvent.dateKey).Nodup ∧
    (∀ e ∈ findPowerCyclesForGeneratorKey pcTableTwoKeys [],
      e ∈ pcTableTwoKeys.flatMap Prod.snd) ∧
    (txt ("2024-03-05") ∈
      (findPowerCyclesForGeneratorKey pcTableTwoKeys []).map PCEvent.dateKey) := by
  have h := find_power_cycles_empty_genkey pcTableTwoKeys (by decide)
  refine ⟨h.2.1, h.2.2.2, ?_⟩
  exact (h.1 (txt ("2024-03-05"))).mpr (by decide)

/-! ## Generator and power-cycle indexing (`buildGeneratorsAndPowerCycles`,
`src/app.js:270-324`)

Notes and mentions as consumed and produced by the index builder.  The
canonical-display-name map (`generatorsDisplay`) is presentation data not
touched by the claims and is not modelled. -/

/-- A generator mention (`src/app.js:293-299`). -/
structure Mention where
  noteId : List Char
  filename : List Char
  dateKey : List Char
  sectionId : List Char
  snippet : List Char
deriving DecidableEq, Repr

/-- A loaded note (`src/app.js:565-571`); `id` models `crypto.randomUUID()`
as an opaque string. -/
structure Note where
  id : List Char
  filename : List Char
  dateKey : List Char
  text : List Char
  blocks : List NSection
deriving DecidableEq, Repr

/-- `snippetFromSection` from `src/app.js:359`: first 140 characters of the
first paragraph-or-bullet, ellipsis-suffixed when truncated. -/
def snippetFromSection (b : NSection) : List Char :=
  match b.paragraphs ++ b.items with
  | [] => []
  | s :: _ => s.take 140 ++ (if 140 < s.length then [Char.ofNat 8230] else [])

/-- The reserved-heading test of the power-cycle pass, the regex
`/^power\s*cycle$/i` of `src/app.js:305`: case-insensitively "power", then
any whitespace run, then "cycle", spanning the whole string. -/
def pcPattern (t : List Char) : Bool :=
  hasPre (txt ("power")) (lowerStr t) &&
    decide (((lowerStr t).drop 5).dropWhile isJsWs = txt ("cycle"))

/-- Append `v` to the bucket of key `k`, creating the bucket at the end of
the table when absent (JavaScript object insertion semantics). -/
def pushAssoc (m : List (List Char × List α)) (k : List Char) (v : α) :
    List (List Char × List α) :=
  match m with
  | [] => [(k, [v])]
  | (k2, vs) :: rest =>
    if k2 = k then (k2, vs ++ [v]) :: rest else (k2, vs) :: pushAssoc rest k v

/-- Push a list of keyed values in order. -/
def foldPush (m : List (List Char × List α)) (l : List (List Char × α)) :
    List (List Char × List α) :=
  l.foldl (fun m2 p => pushAssoc m2 p.1 p.2) m

/-- Sort every bucket of the table (the post-processing of
`src/app.js:317-323`). -/
def sortBuckets (key : α → List Char) (m : List (List Char × List α)) :
    List (List Char × List α) :=
  m.map (fun kv => (kv.1, sortByKeyDesc key kv.2))

/-- All values of the table, in bucket order. -/
def flattenVals (m : List (List Char × List α)) : List α := m.flatMap Prod.snd

/-- The generator pass for one section (`src/app.js:280-300`): skip empty
titles, the reserved headings "power cycle"/"powercycle" (lowercased trimmed
title), and titles whose normalized key is empty; otherwise push a Mention. -/
def genStep (n : Note) (m : List (List Char × List Mention)) (b : NSection) :
    List (List Char × List Mention) :=
  if b.title = [] then m
  else if lowerStr (jsTrim b.title) = txt ("power cycle") ||
      lowerStr (jsTrim b.title) = txt ("powercycle") then m
  else if normalizeNameKey (jsTrim b.title) = [] then m
  else
    pushAssoc m (normalizeNameKey (jsTrim b.title))
      ⟨n.id, n.filename, n.dateKey, b.id, snippetFromSection b⟩

/-- The power-cycle pass for one section (`src/app.js:303-314`): for a
reserved-pattern title, push one event per non-empty trimmed bullet, keyed
by the bullet's normalized key. -/
def pcStep (n : Note) (m : List (List Char × List PCEvent)) (b : NSection) :
    List (List Char × List PCEvent) :=
  if b.title = [] then m
  else if pcPattern (jsTrim b.title) then
    b.items.foldl (fun m2 itemRaw =>
      if jsTrim itemRaw = [] then m2
      else pushAssoc m2 (normalizeNameKey (jsTrim itemRaw))
        ⟨n.dateKey, n.id, n.filename, jsTrim itemRaw⟩) m
  else m

/-- The two tables built by `buildGeneratorsAndPowerCycles` before the
per-bucket date sort. -/
def buildGeneratorsRaw (notes : List Note) : List (List Char × List Mention) :=
  notes.foldl (fun m n => n.blocks.foldl (genStep n) m) []

def buildPowerCyclesRaw (notes : List Note) : List (List Char × List PCEvent) :=
  notes.foldl (fun m n => n.blocks.foldl (pcStep n) m) []

/-- `generatorsIndex` after the date sort of `src/app.js:318-320`. -/
def buildGenerators (notes : List Note) : List (List Char × List Mention) :=
  sortBuckets Mention.dateKey (buildGeneratorsRaw notes)

/-- `powerCyclesMap` after the date sort of `src/app.js:321-323`. -/
def buildPowerCycles (notes : List Note) : List (List Char × List PCEvent) :=
  sortBuckets PCEvent.dateKey (buildPowerCyclesRaw notes)

/-! Association-table lemmas. -/

theorem pushAssoc_lookup (m : List (List Char × List α)) (k : List Char) (v : α)
    (k2 : List Char) :
    lookupVal (pushAssoc m k v) k2 =
      if k2 = k then lookupVal m k2 ++ [v] else lookupVal m k2 := by
  induction m with
  | nil =>
    by_cases h : k2 = k
    · subst h
      simp [pushAssoc, lookupVal]
    · simp [pushAssoc, lookupVal, h, Ne.symm h]
  | cons kv rest ih =>
    obtain ⟨k3, vs⟩ := kv
    simp only [pushAssoc]
    by_cases h3 : k3 = k
    · subst h3
      simp only [if_pos rfl, lookupVal]
      by_cases h2 : k3 = k2
      · subst h2
        simp
      · rw [if_neg h2, if_neg (show ¬ k2 = k3 from fun hh => h2 hh.symm), if_neg h2]
    · rw [if_neg h3]
      simp only [lookupVal, ih]
      by_cases h2 : k3 = k2
      · subst h2
        simp [h3]
      · simp [h2]

theorem foldPush_lookup (l : List (List Char × α)) :
    ∀ (m : List (List Char × List α)) (k : List Char),
      lookupVal (foldPush m l) k =
        lookupVal m k ++ (l.filter (fun p => p.1 = k)).map Prod.snd := by
  induction l with
  | nil => intro m k; simp [foldPush]
  | cons e l2 ih =>
    intro m k
    simp only [foldPush, List.foldl_cons]
    rw [show List.foldl (fun m2 p => pushAssoc m2 p.1 p.2) (pushAssoc m e.1 e.2) l2 =
      foldPush (pushAssoc m e.1 e.2) l2 from rfl]
    rw [ih (pushAssoc m e.1 e.2) k, pushAssoc_lookup]
    by_cases h : k = e.1
    · subst h
      simp [List.filter_cons, List.append_assoc]
    · simp only [if_neg h, List.filter_cons]
      have hd : (decide (e.1 = k)) = false := decide_eq_false (fun hh => h hh.symm)
      rw [hd]
      simp

theorem lookupVal_sortBuckets (key : α → List Char) (m : List (List Char × List α))
    (k : List Char) :
    lookupVal (sortBuckets key m) k = sortByKeyDesc key (lookupVal m k) := by
  induction m with
  | nil => simp [sortBuckets, lookupVal, sortByKeyDesc]
  | cons kv rest ih =>
    simp only [sortBuckets, List.map_cons, lookupVal]
    by_cases h : kv.1 = k
    · simp [h]
    · simp only [if_neg h]
      exact ih

theorem flattenVals_pushAssoc (m : List (List Char × List α)) (k : List Char) (v : α) :
    List.Perm (flattenVals (pushAssoc m k v)) (flattenVals m ++ [v]) := by
  induction m with
  | nil => simp [pushAssoc, flattenVals]
  | cons kv rest ih =>
    obtain ⟨k2, vs⟩ := kv
    simp only [pushAssoc]
    by_cases h : k2 = k
    · rw [if_pos h]
      simp only [flattenVals, List.flatMap_cons]
      rw [List.append_assoc, List.append_assoc]
      exact List.Perm.append_left vs List.perm_append_comm
    · rw [if_neg h]
      simp only [flattenVals, List.flatMap_cons] at ih ⊢
      rw [List.append_assoc]
      exact List.Perm.append_left vs ih

theorem flattenVals_foldPush (l : List (List Char × α)) :
    ∀ (m : List (List Char × List α)),
      List.Perm (flattenVals (foldPush m l)) (flattenVals m ++ l.map Prod.snd) := by
  induction l with
  | nil => intro m; simp [foldPush]
  | cons e l2 ih =>
    intro m
    simp only [foldPush, List.foldl_cons, List.map_cons]
    have h1 : List.Perm (flattenVals (foldPush (pushAssoc m e.1 e.2) l2))
        (flattenVals (pushAssoc m e.1 e.2) ++ l2.map Prod.snd) := ih _
    refine h1.trans ?_
    have h2 := (flattenVals_pushAssoc m e.1 e.2).append_right (l2.map Prod.snd)
    refine h2.trans ?_
    rw [List.append_assoc]
    exact List.Perm.append_left _ (List.Perm.refl _)

theorem flattenVals_sortBuckets (key : α → List Char) (m : List (List Char × List α)) :
    List.Perm (flattenVals (sortBuckets key m)) (flattenVals m) := by
  induction m with
  | nil => simp [sortBuckets, flattenVals]
  | cons kv rest ih =>
    simp only [sortBuckets, flattenVals, List.map_cons, List.flatMap_cons] at ih ⊢
    exact (sortByKeyDesc_perm key kv.2).append ih

/-! Specification-side event and mention lists for the index builder
(claim C2). -/

/-- Annotate an event with the key it is filed under (the normalized form of
its raw site label, which is the trimmed bullet text). -/
def keyedEv (e : PCEvent) : List Char × PCEvent := (normalizeNameKey e.raw, e)

/-- The events contributed by one section, as the specification phrases it:
one event per non-empty trimmed bullet of a reserved-pattern section. -/
def pcBlockEvents (n : Note) (b : NSection) : List PCEvent :=
  if pcPattern (jsTrim b.title) then
    ((b.items.map jsTrim).filter (fun it => it ≠ [])).map
      (fun it => ⟨n.dateKey, n.id, n.filename, it⟩)
  else []

/-- All power-cycle events of a note set, in generation order. -/
def pcEventsSpec (notes : List Note) : List PCEvent :=
  notes.flatMap (fun n => n.blocks.flatMap (pcBlockEvents n))

/-- The keyed mention contributed by one section that passes the generator
filters of Pass 1. -/
def genPairOf (n : Note) (b : NSection) : List Char × Mention :=
  (normalizeNameKey (jsTrim b.title),
    ⟨n.id, n.filename, n.dateKey, b.id, snippetFromSection b⟩)

/-- The generator filter of Pass 1: non-empty title, not a reserved heading,
non-empty normalized key. -/
def genKeep (b : NSection) : Bool :=
  b.title ≠ [] &&
    !(lowerStr (jsTrim b.title) = txt ("power cycle") ||
      lowerStr (jsTrim b.title) = txt ("powercycle")) &&
    normalizeNameKey (jsTrim b.title) ≠ []

/-- All keyed generator mentions of a note set, in generation order. -/
def genPairsSpec (notes : List Note) : List (List Char × Mention) :=
  notes.flatMap (fun n => (n.blocks.filter genKeep).map (genPairOf n))

theorem pcItems_fold_eq (n : Note) (items : List (List Char)) :
    ∀ m, items.foldl (fun m2 itemRaw =>
        if jsTrim itemRaw = [] then m2
        else pushAssoc m2 (normalizeNameKey (jsTrim itemRaw))
          ⟨n.dateKey, n.id, n.filename, jsTrim itemRaw⟩) m =
      foldPush m ((((items.map jsTrim).filter (fun it => it ≠ [])).map
        (fun it => (⟨n.dateKey, n.id, n.filename, it⟩ : PCEvent))).map keyedEv) := by
  induction items with
  | nil => intro m; simp [foldPush]
  | cons itemRaw rest ih =>
    intro m
    simp only [List.foldl_cons, List.map_cons, List.filter_cons]
    by_cases h : jsTrim itemRaw = []
    · rw [if_pos h]
      have hd : (decide (jsTrim itemRaw ≠ [])) = false := by simp [h]
      simp only [hd, Bool.false_eq_true, if_false]
      exact ih m
    · rw [if_neg h]
      have hd : (decide (jsTrim itemRaw ≠ [])) = true := by simp [h]
      simp only [hd, if_true, List.map_cons]
      simp only [foldPush, List.foldl_cons]
      exact ih _

theorem pcStep_eq (n : Note) (b : NSection) (m : List (List Char × List PCEvent)) :
    pcStep n m b = foldPush m ((pcBlockEvents n b).map keyedEv) := by
  simp only [pcStep, pcBlockEvents]
  by_cases h1 : b.title = []
  · rw [if_pos h1]
    have : pcPattern (jsTrim b.title) = false := by
      rw [h1]
      decide
    rw [this]
    simp [foldPush]
  · rw [if_neg h1]
    by_cases h2 : pcPattern (jsTrim b.title) = true
    · rw [if_pos h2, if_pos h2]
      exact pcItems_fold_eq n b.items m
    · rw [if_neg h2, if_neg h2]
      simp [foldPush]

theorem pcBlocks_fold_eq (n : Note) (blocks : List NSection) :
    ∀ m, blocks.foldl (pcStep n) m =
      foldPush m ((blocks.flatMap (pcBlockEvents n)).map keyedEv) := by
  induction blocks with
  | nil => intro m; simp [foldPush]
  | cons b rest ih =>
    intro m
    simp only [List.foldl_cons, List.flatMap_cons, List.map_append]
    rw [pcStep_eq n b m, ih (foldPush m ((pcBlockEvents n b).map keyedEv))]
    simp only [foldPush, List.foldl_append]

theorem buildPowerCyclesRaw_eq (notes : List Note) :
    buildPowerCyclesRaw notes = foldPush [] ((pcEventsSpec notes).map keyedEv) := by
  suffices h : ∀ m, notes.foldl (fun m n => n.blocks.foldl (pcStep n) m) m =
      foldPush m ((pcEventsSpec notes).map keyedEv) by
    exact h []
  induction notes with
  | nil => intro m; simp [pcEventsSpec, foldPush]
  | cons n rest ih =>
    intro m
    simp only [List.foldl_cons, pcEventsSpec, List.flatMap_cons, List.map_append]
    rw [pcBlocks_fold_eq n n.blocks m, ih (foldPush m ((n.blocks.flatMap (pcBlockEvents n)).map keyedEv))]
    simp only [pcEventsSpec, foldPush, List.foldl_append]

theorem filter_map_keyed (L : List PCEvent) (k : List Char) :
    ((L.map keyedEv).filter (fun p => p.1 = k)).map Prod.snd =
      L.filter (fun e => normalizeNameKey e.raw = k) := by
  induction L with
  | nil => rfl
  | cons e L2 ih =>
    simp only [List.map_cons, List.filter_cons]
    by_cases h : normalizeNameKey e.raw = k
    · have h1 : (decide ((keyedEv e).1 = k)) = true := by
        simp [keyedEv, h]
      have h2 : (decide (normalizeNameKey e.raw = k)) = true := by simp [h]
      simp only [h1, h2, if_true, List.map_cons, ih]
      rfl
    · have h1 : (decide ((keyedEv e).1 = k)) = false := by
        simp [keyedEv, h]
      have h2 : (decide (normalizeNameKey e.raw = k)) = false := by simp [h]
      simp only [h1, h2, Bool.false_eq_true, if_false, ih]

theorem lookup_buildPowerCycles (notes : List Note) (k : List Char) :
    lookupVal (buildPowerCycles notes) k =
      sortByKeyDesc PCEvent.dateKey
        ((pcEventsSpec notes).filter (fun e => normalizeNameKey e.raw = k)) := by
  rw [buildPowerCycles, lookupVal_sortBuckets, buildPowerCyclesRaw_eq,
    foldPush_lookup]
  simp only [lookupVal, List.nil_append]
  rw [filter_map_keyed]

theorem genStep_keep (n : Note) (b : NSection) (m : List (List Char × List Mention))
    (h : genKeep b = true) :
    genStep n m b = pushAssoc m (normalizeNameKey (jsTrim b.title))
      ⟨n.id, n.filename, n.dateKey, b.id, snippetFromSection b⟩ := by
  simp only [genKeep, Bool.and_eq_true, decide_eq_true_eq, Bool.not_eq_true'] at h
  obtain ⟨⟨h1, h2⟩, h3⟩ := h
  simp only [genStep, if_neg h1, if_neg h3, h2, Bool.false_eq_true, if_false]

theorem genStep_skip (n : Note) (b : NSection) (m : List (List Char × List Mention))
    (h : genKeep b = false) : genStep n m b = m := by
  by_cases h1 : b.title = []
  · simp [genStep, h1]
  · by_cases h2 : (lowerStr (jsTrim b.title) = txt ("power cycle") ||
        lowerStr (jsTrim b.title) = txt ("powercycle")) = true
    · simp [genStep, h1, h2]
    · by_cases h3 : normalizeNameKey (jsTrim b.title) = []
      · simp [genStep, h1, h2, h3]
      · exfalso
        simp only [genKeep, Bool.and_eq_false_iff, decide_eq_false_iff_not,
          Bool.not_eq_false] at h
        rcases h with (h4 | h4) | h4
        · exact h4 h1
        · apply h2
          revert h4
          simp
          tauto
        · exact h4 h3

theorem genBlocks_fold_eq (n : Note) (blocks : List NSection) :
    ∀ m, blocks.foldl (genStep n) m =
      foldPush m ((blocks.filter genKeep).map (genPairOf n)) := by
  induction blocks with
  | nil => intro m; simp [foldPush]
  | cons b rest ih =>
    intro m
    simp only [List.foldl_cons, List.filter_cons]
    by_cases h : genKeep b = true
    · rw [genStep_keep n b m h, h]
      simp only [if_true, List.map_cons]
      simp only [foldPush, List.foldl_cons]
      exact ih _
    · have hf : genKeep b = false := by simpa using h
      rw [genStep_skip n b m hf, hf]
      simp only [Bool.false_eq_true, if_false]
      exact ih m

theorem buildGeneratorsRaw_eq (notes : List Note) :
    buildGeneratorsRaw notes = foldPush [] (genPairsSpec notes) := by
  suffices h : ∀ m, notes.foldl (fun m n => n.blocks.foldl (genStep n) m) m =
      foldPush m (genPairsSpec notes) by
    exact h []
  induction notes with
  | nil => intro m; simp [genPairsSpec, foldPush]
  | cons n rest ih =>
    intro m
    simp only [List.foldl_cons, genPairsSpec, List.flatMap_cons]
    rw [genBlocks_fold_eq n n.blocks m, ih _]
    simp only [genPairsSpec, foldPush, List.foldl_append]

theorem buildGenerators_perm (notes : List Note) :
    List.Perm (flattenVals (buildGenerators notes)) ((genPairsSpec notes).map Prod.snd) := by
  have h1b : List.Perm (flattenVals (buildGenerators notes))
      (flattenVals (buildGeneratorsRaw notes)) :=
    flattenVals_sortBuckets Mention.dateKey (buildGeneratorsRaw notes)
  rw [buildGeneratorsRaw_eq] at h1b
  have h2 := flattenVals_foldPush (genPairsSpec notes) []
  have h3 : flattenVals ([] : List (List Char × List Mention)) = [] := rfl
  rw [h3, List.nil_append] at h2
  exact h1b.trans h2

/-- C2 (amended): every Section whose trimmed title matches the reserved
pattern contributes one power-cycle Event per non-empty bullet, keyed by the
bullet's normalized key; but a Section is excluded from the generator index
only when its trimmed lowercase title is exactly "power cycle" or
"powercycle" — a pattern-matching title with other internal whitespace still
produces a generator mention.  The generator index consists exactly of the
mentions of the sections passing the `genKeep` filter. -/
theorem power_cycle_section_law (notes : List Note) :
    (∀ k, lookupVal (buildPowerCycles notes) k =
      sortByKeyDesc PCEvent.dateKey
        ((pcEventsSpec notes).filter (fun e => normalizeNameKey e.raw = k))) ∧
    List.Perm (flattenVals (buildGenerators notes)) ((genPairsSpec notes).map Prod.snd) ∧
    (∀ n ∈ notes, ∀ b ∈ n.blocks, pcPattern (jsTrim b.title) = true →
      ∀ it ∈ b.items, jsTrim it ≠ [] →
        (⟨n.dateKey, n.id, n.filename, jsTrim it⟩ : PCEvent) ∈
          lookupVal (buildPowerCycles notes) (normalizeNameKey (jsTrim it))) := by
  refine ⟨lookup_buildPowerCycles notes, buildGenerators_perm notes, ?_⟩
  intro n hn b hb hpat it hit hne
  rw [lookup_buildPowerCycles]
  have hmem : (⟨n.dateKey, n.id, n.filename, jsTrim it⟩ : PCEvent) ∈
      (pcEventsSpec notes).filter
        (fun e => normalizeNameKey e.raw = normalizeNameKey (jsTrim it)) := by
    rw [List.mem_filter]
    refine ⟨?_, by simp⟩
    rw [pcEventsSpec, List.mem_flatMap]
    refine ⟨n, hn, ?_⟩
    rw [List.mem_flatMap]
    refine ⟨b, hb, ?_⟩
    rw [pcBlockEvents, if_pos hpat]
    refine List.mem_map_of_mem _ ?_
    rw [List.mem_filter]
    refine ⟨List.mem_map_of_mem jsTrim hit, by simp [hne]⟩
  exact ((sortByKeyDesc_perm PCEvent.dateKey _).mem_iff).mpr hmem

/-- A note whose only section is titled "Power  Cycle" (two internal spaces),
produced by the parser itself. -/
def notePC : Note :=
  ⟨txt ("n1"), txt ("f.txt"), txt ("2024-03-01"), txt (""),
    parseNoteToBlocks (txt ("Power  Cycle:\n- Gen A")) (txt ("f.txt"))⟩

/-- C2 (counterexample): the title "Power  Cycle" matches the reserved
power-cycle pattern (so the section feeds the power-cycle table), yet the
same section also produces a generator mention, because the generator-index
exclusion tests membership in {"power cycle", "powercycle"} rather than the
pattern. -/
theorem power_cycle_exclusion_counterexample :
    pcPattern (jsTrim (txt ("Power  Cycle"))) = true ∧
    flattenVals (buildGenerators [notePC]) ≠ [] ∧
    lookupVal (buildPowerCycles [notePC]) (txt ("gena")) ≠ [] := by
  decide

/-- C2 (witness): the amended law evaluated on the concrete note, all
membership hypotheses discharged concretely. -/
theorem power_cycle_section_law_witness :
    (⟨txt ("2024-03-01"), txt ("n1"), txt ("f.txt"), txt ("Gen A")⟩ : PCEvent) ∈
      lookupVal (buildPowerCycles [notePC])
        (normalizeNameKey (jsTrim (txt ("Gen A")))) := by
  have h := power_cycle_section_law [notePC]
  exact h.2.2 notePC (by decide)
    ⟨txt ("Power  Cycle"), [txt ("Gen A")], [], txt ("f-txt-power-cycle")⟩
    (by decide) (by decide) (txt ("Gen A")) (by decide) (by decide)

/-! ## Search and highlight engine (`highlightHtml`, `countOccurrences`,
`src/app.js:88-107`)

The query regex is built from the normalized query with every character of
`[.*+?^${}()|[\]\\]` backslash-escaped (`src/app.js:92,104`), so it denotes
a case-insensitive literal string; the matcher below implements exactly the
leftmost non-overlapping scan of such a literal regex with the `gi` flags.
Scanning functions that jump forward by a match length are written with a
skip counter so that the recursion is structural (the counter only ever
skips characters that are consumed from the list). -/

/-- The highlight marker `<mark>` (written as characters). -/
def mOpen : List Char := ['<', 'm', 'a', 'r', 'k', '>']

/-- The closing highlight marker `</mark>`. -/
def mClose : List Char := ['<', '/', 'm', 'a', 'r', 'k', '>']

/-- The character class escaped in `src/app.js:92,104`:
`[.*+?^${}()|[\]\\]`. -/
def isRegexSpecial (c : Char) : Bool :=
  c = '.' || c = '*' || c = '+' || c = '?' || c = '^' || c = '$' ||
  c = '\x7b' || c = '\x7d' || c = '(' || c = ')' || c = '|' ||
  c = '[' || c = ']' || c = '\\'

/-- `q.replace(/[.*+?^${}()|[\]\\]/g, "\\$&")`: backslash-escape every
special character. -/
def escapeRegex (s : List Char) : List Char :=
  s.flatMap (fun c => if isRegexSpecial c then ['\\', c] else [c])

/-- Interpretation of an escaped-literal regex source: a backslash makes the
next character literal, every other character stands for itself.  For
patterns in the image of `escapeRegex` this is the literal string the regex
matches. -/
def interpEsc : List Char → List Char
  | [] => []
  | c :: rest =>
    if c = '\\' then
      match rest with
      | [] => ['\\']
      | d :: rest2 => d :: interpEsc rest2
    else c :: interpEsc rest

/-- Scan for the closing `>` of a tag candidate: the characters before the
first `>` and the remainder after it, or `none` when no `>` follows. -/
def tagTake : List Char → Option (List Char × List Char)
  | [] => none
  | c :: cs =>
    if c = '>' then some ([], cs)
    else
      match tagTake cs with
      | some (a, r) => some (c :: a, r)
      | none => none

/-- `html.split(/(<[^>]+>)/g)`: alternate text parts and captured tag parts
(`<` + one-or-more non-`>` + `>`), keeping empty text parts.  The first
argument counts characters still to skip (the inside of an emitted tag). -/
def splitGo : Nat → List Char → List Char → List (List Char)
  | n + 1, acc, _ :: cs => splitGo n acc cs
  | _, acc, [] => [acc.reverse]
  | 0, acc, c :: cs =>
    if c = '<' then
      match tagTake cs with
      | some (a, _) =>
        if a = [] then splitGo 0 ('<' :: acc) cs
        else acc.reverse :: (('<' :: a) ++ ['>']) :: splitGo (a.length + 1) [] cs
      | none => splitGo 0 ('<' :: acc) cs
    else splitGo 0 (c :: acc) cs

/-- The split of `src/app.js:91`. -/
def splitTags (s : List Char) : List (List Char) := splitGo 0 [] s

/-- `part.replace(re, m => "<mark>" + m + "</mark>")` for the escaped-literal
regex of a non-empty lowercase pattern `p`: leftmost, non-overlapping,
case-insensitive; each match is wrapped in the markers.  The skip counter
consumes the remainder of a match.  (A regex built from a non-empty literal
never matches at a position without its full text, hence the `p ≠ []` guard
mirrors mere totality, not a source branch.) -/
def replaceGo (p : List Char) : Nat → List Char → List Char
  | n + 1, _ :: cs => replaceGo p n cs
  | _, [] => []
  | 0, d :: ds =>
    if p ≠ [] ∧ lowerStr ((d :: ds).take p.length) = p then
      mOpen ++ (d :: ds).take p.length ++ mClose ++ replaceGo p (p.length - 1) ds
    else d :: replaceGo p 0 ds

def replaceLit (p s : List Char) : List Char := replaceGo p 0 s

/-- `text.match(re).length` for the same escaped-literal regex: the number of
leftmost non-overlapping case-insensitive literal matches. -/
def countGo (p : List Char) : Nat → List Char → Nat
  | n + 1, _ :: cs => countGo p n cs
  | _, [] => 0
  | 0, d :: ds =>
    if p ≠ [] ∧ lowerStr ((d :: ds).take p.length) = p then
      1 + countGo p (p.length - 1) ds
    else countGo p 0 ds

def countLit (p s : List Char) : Nat := countGo p 0 s

/-- Concatenate the rendered parts (`Array.prototype.join("")`). -/
def joinL (ls : List (List Char)) : List Char := ls.foldr (fun a b => a ++ b) []

/-- `highlightHtml` from `src/app.js:88`: blank query returns the markup
unchanged; otherwise split at tags and wrap matches inside the parts that do
not start with `<`. -/
def highlightHtml (html query : List Char) : List Char :=
  match normalizeQuery query with
  | [] => html
  | qc :: qrest =>
    joinL ((splitTags html).map (fun part =>
      if hasPre (txt ("<")) part then part
      else replaceLit (interpEsc (escapeRegex (qc :: qrest))) part))

/-- `countOccurrences` from `src/app.js:101`: blank query counts zero;
otherwise count the matches of the escaped query regex. -/
def countOccurrences (text query : List Char) : Nat :=
  match normalizeQuery query with
  | [] => 0
  | qc :: qrest => countLit (interpEsc (escapeRegex (qc :: qrest))) text

/-- One left-to-right pass removing every occurrence of the two highlight
markers (the reading of "stripping all highlight markers" used by the
round-trip property). -/
def stripGo : Nat → List Char → List Char
  | n + 1, _ :: cs => stripGo n cs
  | _, [] => []
  | 0, c :: cs =>
    if hasPre mOpen (c :: cs) then stripGo 5 cs
    else if hasPre mClose (c :: cs) then stripGo 6 cs
    else c :: stripGo 0 cs

def stripMarks (s : List Char) : List Char := stripGo 0 s

theorem interpEsc_bs (d : Char) (rest : List Char) :
    interpEsc ('\\' :: d :: rest) = d :: interpEsc rest := by
  simp only [interpEsc]
  simp

theorem interpEsc_ns (c : Char) (rest : List Char) (h : c ≠ '\\') :
    interpEsc (c :: rest) = c :: interpEsc rest := by
  rw [interpEsc.eq_def]
  split
  · rename_i heq
    exact absurd heq (by simp)
  · rename_i d rest2 heq
    obtain ⟨h1, h2⟩ := List.cons_eq_cons.mp heq
    subst h1
    subst h2
    rw [if_neg h]

theorem interpEsc_escapeRegex (u : List Char) : interpEsc (escapeRegex u) = u := by
  induction u with
  | nil => rfl
  | cons c rest ih =>
    simp only [escapeRegex, List.flatMap_cons] at ih ⊢
    by_cases h : isRegexSpecial c = true
    · rw [if_pos h, List.cons_append, List.cons_append, List.nil_append,
        interpEsc_bs, ih]
    · have hc : c ≠ '\\' := by
        intro hcc
        subst hcc
        exact h (by decide)
      rw [if_neg h, List.singleton_append, interpEsc_ns c _ hc, ih]

/-- C7 (confirmed): the query is treated as literal text.  `countOccurrences`
builds its regex by escaping every pattern metacharacter, so for every query
(special characters included) it equals the count of non-overlapping
case-insensitive occurrences of the trimmed lowercased query as a literal
substring; it is a total function and never fails. -/
theorem count_treats_query_literally (text q : List Char)
    (h : normalizeQuery q ≠ []) :
    countOccurrences text q = countLit (normalizeQuery q) text := by
  rw [countOccurrences.eq_def]
  split
  · exact absurd (by assumption) h
  · rename_i qc qrest heq
    rw [interpEsc_escapeRegex, heq]

/-- C7 (witness): a query made of regex metacharacters, counted literally. -/
theorem count_treats_query_literally_witness :
    normalizeQuery (txt (".*a")) ≠ [] ∧
    countOccurrences (txt ("x.*ab.*A")) (txt (".*a")) =
      countLit (normalizeQuery (txt (".*a"))) (txt ("x.*ab.*A")) ∧
    countOccurrences (txt ("x.*ab.*A")) (txt (".*a")) = 2 := by
  refine ⟨by decide, count_treats_query_literally (txt ("x.*ab.*A")) (txt (".*a")) (by decide),
    by decide⟩

/-- C8 (confirmed): an empty or whitespace-only query deactivates search:
the count is 0 and highlighting returns the markup unchanged. -/
theorem blank_query_inactive (text markup q : List Char)
    (h : normalizeQuery q = []) :
    countOccurrences text q = 0 ∧ highlightHtml markup q = markup := by
  constructor
  · rw [countOccurrences.eq_def, h]
  · rw [highlightHtml.eq_def, h]

/-- C8 (witness): the blank-query law evaluated on a whitespace-only query. -/
theorem blank_query_inactive_witness :
    countOccurrences (txt ("some text")) (txt ("   ")) = 0 ∧
    highlightHtml (txt ("<p>some text</p>")) (txt ("   ")) = txt ("<p>some text</p>") :=
  blank_query_inactive (txt ("some text")) (txt ("<p>some text</p>")) (txt ("   "))
    (by decide)

/-! Prefix and occurrence lemmas for the round-trip proof (claim C6). -/

theorem hasPre_length : ∀ p s : List Char, hasPre p s = true → p.length ≤ s.length := by
  intro p
  induction p with
  | nil => intro s _; simp
  | cons c p2 ih =>
    intro s h
    cases s with
    | nil => simp [hasPre] at h
    | cons d s2 =>
      simp only [hasPre, Bool.and_eq_true] at h
      have := ih s2 h.2
      simp only [List.length_cons]
      omega

theorem hasPre_ne_nil (p : List Char) (h : p ≠ []) : hasPre p [] = false := by
  cases p with
  | nil => exact absurd rfl h
  | cons c p2 => rfl

theorem hasPre_nil_eq (p : List Char) (h : hasPre p [] = true) : p = [] := by
  cases p with
  | nil => rfl
  | cons c p2 => simp [hasPre] at h

theorem occurs_nil_pat (s : List Char) : occursIn [] s = true := by
  cases s with
  | nil => rfl
  | cons d s2 => simp [occursIn, hasPre]

theorem hasPre_occurs (p s : List Char) (h : hasPre p s = true) : occursIn p s = true := by
  cases s with
  | nil =>
    simp only [occursIn]
    exact h
  | cons d s2 =>
    simp only [occursIn, Bool.or_eq_true]
    exact Or.inl h

theorem occurs_cons_of_occurs (p s : List Char) (c : Char) (h : occursIn p s = true) :
    occursIn p (c :: s) = true := by
  simp only [occursIn, Bool.or_eq_true]
  exact Or.inr h

theorem hasPre_mono_append : ∀ (p a b : List Char),
    hasPre p a = true → hasPre p (a ++ b) = true := by
  intro p
  induction p with
  | nil => intro a b _; rfl
  | cons c p2 ih =>
    intro a b h
    cases a with
    | nil => simp [hasPre] at h
    | cons d a2 =>
      simp only [List.cons_append, hasPre, Bool.and_eq_true] at h ⊢
      exact ⟨h.1, ih a2 b h.2⟩

theorem occurs_append_left : ∀ (a p b : List Char),
    occursIn p a = true → occursIn p (a ++ b) = true := by
  intro a
  induction a with
  | nil =>
    intro p b h
    simp only [occursIn] at h
    rw [hasPre_nil_eq p h]
    simpa using occurs_nil_pat b
  | cons c a2 ih =>
    intro p b h
    simp only [occursIn, Bool.or_eq_true] at h
    simp only [List.cons_append]
    rcases h with h | h
    · exact hasPre_occurs p _ (hasPre_mono_append p (c :: a2) b h)
    · exact occurs_cons_of_occurs p (a2 ++ b) c (ih p b h)

theorem occurs_append_right : ∀ (a p b : List Char),
    occursIn p b = true → occursIn p (a ++ b) = true := by
  intro a
  induction a with
  | nil => intro p b h; simpa using h
  | cons c a2 ih =>
    intro p b h
    simp only [List.cons_append]
    exact occurs_cons_of_occurs p (a2 ++ b) c (ih p b h)

theorem noOcc_left (a p b : List Char) (h : occursIn p (a ++ b) = false) :
    occursIn p a = false := by
  by_contra h2
  rw [Bool.not_eq_false] at h2
  rw [occurs_append_left a p b h2] at h
  exact absurd h (by simp)

theorem noOcc_right (a p b : List Char) (h : occursIn p (a ++ b) = false) :
    occursIn p b = false := by
  by_contra h2
  rw [Bool.not_eq_false] at h2
  rw [occurs_append_right a p b h2] at h
  exact absurd h (by simp)

theorem noOcc_cons (c : Char) (p s : List Char) (h : occursIn p (c :: s) = false) :
    occursIn p s = false := by
  by_contra h2
  rw [Bool.not_eq_false] at h2
  rw [occurs_cons_of_occurs p s c h2] at h
  exact absurd h (by simp)

theorem hasPre_append_long : ∀ (p a b : List Char), p.length ≤ a.length →
    hasPre p (a ++ b) = hasPre p a := by
  intro p
  induction p with
  | nil => intro a b _; rfl
  | cons c p2 ih =>
    intro a b hl
    cases a with
    | nil => simp at hl
    | cons d a2 =>
      simp only [List.cons_append, hasPre, List.append_eq]
      rw [ih a2 b (by simpa using hl)]

theorem hasPre_append_short : ∀ (a p b : List Char), a.length < p.length →
    hasPre p (a ++ b) = true →
    a = p.take a.length ∧ hasPre (p.drop a.length) b = true := by
  intro a
  induction a with
  | nil => intro p b _ h; simpa using h
  | cons d a2 ih =>
    intro p b hl h
    cases p with
    | nil => simp at hl
    | cons c p2 =>
      simp only [List.cons_append, hasPre, Bool.and_eq_true, decide_eq_true_eq] at h
      obtain ⟨h1, h2⟩ := ih p2 b (by simpa using hl) h.2
      constructor
      · simp only [List.length_cons, List.take_succ_cons, List.cons_eq_cons]
        exact ⟨h.1.symm, h1⟩
      · simpa using h2

/-! Derived equations for the skip-counter scanners. -/

theorem stripGo_skip : ∀ (n : Nat) (s : List Char), stripGo n s = stripGo 0 (s.drop n) := by
  intro n
  induction n with
  | zero => intro s; simp
  | succ n2 ih =>
    intro s
    cases s with
    | nil => rfl
    | cons c cs =>
      show stripGo n2 cs = stripGo 0 (cs.drop n2)
      exact ih cs

theorem stripMarks_open (s : List Char) (h : hasPre mOpen s = true) :
    stripMarks s = stripMarks (s.drop 6) := by
  cases s with
  | nil => simp [mOpen, hasPre] at h
  | cons c cs =>
    show stripGo 0 (c :: cs) = stripGo 0 ((c :: cs).drop 6)
    rw [show stripGo 0 (c :: cs) =
        (if hasPre mOpen (c :: cs) then stripGo 5 cs
         else if hasPre mClose (c :: cs) then stripGo 6 cs
         else c :: stripGo 0 cs) from rfl]
    rw [if_pos h, stripGo_skip 5 cs]
    rfl

theorem stripMarks_close (s : List Char) (h1 : hasPre mOpen s = false)
    (h2 : hasPre mClose s = true) :
    stripMarks s = stripMarks (s.drop 7) := by
  cases s with
  | nil => simp [mClose, hasPre] at h2
  | cons c cs =>
    show stripGo 0 (c :: cs) = stripGo 0 ((c :: cs).drop 7)
    rw [show stripGo 0 (c :: cs) =
        (if hasPre mOpen (c :: cs) then stripGo 5 cs
         else if hasPre mClose (c :: cs) then stripGo 6 cs
         else c :: stripGo 0 cs) from rfl]
    rw [if_neg (by simp [h1]), if_pos h2, stripGo_skip 6 cs]
    rfl

theorem stripMarks_cons (c : Char) (cs : List Char)
    (h1 : hasPre mOpen (c :: cs) = false) (h2 : hasPre mClose (c :: cs) = false) :
    stripMarks (c :: cs) = c :: stripMarks cs := by
  show stripGo 0 (c :: cs) = c :: stripGo 0 cs
  rw [show stripGo 0 (c :: cs) =
      (if hasPre mOpen (c :: cs) then stripGo 5 cs
       else if hasPre mClose (c :: cs) then stripGo 6 cs
       else c :: stripGo 0 cs) from rfl]
  rw [if_neg (by simp [h1]), if_neg (by simp [h2])]

theorem replaceGo_skip (p : List Char) :
    ∀ (n : Nat) (s : List Char), replaceGo p n s = replaceGo p 0 (s.drop n) := by
  intro n
  induction n with
  | zero => intro s; simp
  | succ n2 ih =>
    intro s
    cases s with
    | nil => rfl
    | cons c cs =>
      show replaceGo p n2 cs = replaceGo p 0 (cs.drop n2)
      exact ih cs

theorem replaceLit_cons_match (p : List Char) (d : Char) (ds : List Char)
    (h : p ≠ [] ∧ lowerStr ((d :: ds).take p.length) = p) :
    replaceLit p (d :: ds) =
      mOpen ++ (d :: ds).take p.length ++ mClose ++ replaceLit p ((d :: ds).drop p.length) := by
  show replaceGo p 0 (d :: ds) = _
  rw [show replaceGo p 0 (d :: ds) =
      (if p ≠ [] ∧ lowerStr ((d :: ds).take p.length) = p then
        mOpen ++ (d :: ds).take p.length ++ mClose ++ replaceGo p (p.length - 1) ds
      else d :: replaceGo p 0 ds) from rfl]
  rw [if_pos h, replaceGo_skip p (p.length - 1) ds]
  have hp : p.length - 1 + 1 = p.length := by
    have : p.length ≠ 0 := by simpa using h.1
    omega
  have hd : ds.drop (p.length - 1) = (d :: ds).drop p.length := by
    rw [show (d :: ds).drop p.length = (d :: ds).drop (p.length - 1 + 1) from by rw [hp]]
    rfl
  rw [hd]
  rfl

theorem replaceLit_cons_nomatch (p : List Char) (d : Char) (ds : List Char)
    (h : ¬ (p ≠ [] ∧ lowerStr ((d :: ds).take p.length) = p)) :
    replaceLit p (d :: ds) = d :: replaceLit p ds := by
  show replaceGo p 0 (d :: ds) = _
  rw [show replaceGo p 0 (d :: ds) =
      (if p ≠ [] ∧ lowerStr ((d :: ds).take p.length) = p then
        mOpen ++ (d :: ds).take p.length ++ mClose ++ replaceGo p (p.length - 1) ds
      else d :: replaceGo p 0 ds) from rfl]
  rw [if_neg h]
  rfl

/-! Character-level facts about the two markers, decided concretely. -/

theorem mOpen_drop_facts : ∀ l, l < 6 → 1 ≤ l →
    mOpen.drop l ≠ [] ∧ (mOpen.drop l).headD 'x' ≠ '<' := by decide

theorem mClose_drop_facts : ∀ l, l < 7 → 1 ≤ l →
    mClose.drop l ≠ [] ∧ (mClose.drop l).headD 'x' ≠ '<' := by decide

theorem mOpen_take_last : ∀ l, l < 6 → (mOpen.take l).getLastD 'x' ≠ '>' := by decide

theorem mClose_take_last : ∀ l, l < 7 → (mClose.take l).getLastD 'x' ≠ '>' := by decide

theorem hasPre_headD_ne (w : List Char) (hne : w ≠ []) (c : Char)
    (hh : w.headD 'x' ≠ c) (v : List Char) : hasPre w (c :: v) = false := by
  cases w with
  | nil => exact absurd rfl hne
  | cons d tail =>
    simp only [List.headD_cons] at hh
    simp [hasPre, hh]

theorem getLastD_append_singleton : ∀ (l : List Char) (a d : Char),
    (l ++ [a]).getLastD d = a := by
  intro l
  induction l with
  | nil => intro a d; rfl
  | cons c l2 ih =>
    intro a d
    simp only [List.cons_append, List.getLastD_cons]
    exact ih a c

/-! The junction analysis: no marker occurrence can span out of a
marker-free block into a following block that is empty or starts with `<`
(no proper suffix of a marker begins with `<`), nor out of a block ending in
`>` (no proper prefix of a marker ends with `>`). -/

theorem no_marker_pre (mu u v : List Char) (hmu : mu = mOpen ∨ mu = mClose)
    (hocc : occursIn mu u = false) (hu : u ≠ [])
    (hv : v = [] ∨ hasPre (txt ("<")) v = true) :
    hasPre mu (u ++ v) = false := by
  by_contra hcontra
  rw [Bool.not_eq_false] at hcontra
  by_cases hl : mu.length ≤ u.length
  · rw [hasPre_append_long mu u v hl] at hcontra
    rw [hasPre_occurs mu u hcontra] at hocc
    exact absurd hocc (by simp)
  · push_neg at hl
    obtain ⟨_, h2⟩ := hasPre_append_short u mu v hl hcontra
    have hl1 : 1 ≤ u.length := List.length_pos.mpr hu
    have hfacts : mu.drop u.length ≠ [] ∧ (mu.drop u.length).headD 'x' ≠ '<' := by
      rcases hmu with rfl | rfl
      · exact mOpen_drop_facts u.length (by simpa using hl) hl1
      · exact mClose_drop_facts u.length (by simpa using hl) hl1
    rcases hv with rfl | hv
    · rw [hasPre_ne_nil _ hfacts.1] at h2
      exact absurd h2 (by simp)
    · have hvshape : ∃ v2, v = '<' :: v2 := by
        cases v with
        | nil => simp [txt, hasPre] at hv
        | cons c2 v2 =>
          simp only [txt, hasPre, Bool.and_eq_true, decide_eq_true_eq] at hv
          exact ⟨v2, by rw [hv.1]⟩
      obtain ⟨v2, rfl⟩ := hvshape
      rw [hasPre_headD_ne _ hfacts.1 '<' hfacts.2 v2] at h2
      exact absurd h2 (by simp)

theorem stripSafeAppend : ∀ (u v : List Char),
    occursIn mOpen u = false → occursIn mClose u = false →
    (v = [] ∨ hasPre (txt ("<")) v = true) →
    stripMarks (u ++ v) = u ++ stripMarks v := by
  intro u
  induction u with
  | nil => intro v _ _ _; simp
  | cons c u2 ih =>
    intro v h1 h2 hv
    have k1 : hasPre mOpen ((c :: u2) ++ v) = false :=
      no_marker_pre mOpen (c :: u2) v (Or.inl rfl) h1 (by simp) hv
    have k2 : hasPre mClose ((c :: u2) ++ v) = false :=
      no_marker_pre mClose (c :: u2) v (Or.inr rfl) h2 (by simp) hv
    rw [List.cons_append] at k1 k2 ⊢
    rw [stripMarks_cons c (u2 ++ v) k1 k2,
      ih v (noOcc_cons c mOpen u2 h1) (noOcc_cons c mClose u2 h2) hv]
    rfl

/-- Stripping is the identity on marker-free strings. -/
theorem strip_id (u : List Char) (h1 : occursIn mOpen u = false)
    (h2 : occursIn mClose u = false) : stripMarks u = u := by
  have h := stripSafeAppend u [] h1 h2 (Or.inl rfl)
  rw [List.append_nil] at h
  rw [h, show stripMarks ([] : List Char) = ([] : List Char) from rfl, List.append_nil]

theorem no_marker_pre_gt (mu w2 v : List Char) (hmu : mu = mOpen ∨ mu = mClose)
    (hocc : occursIn mu (w2 ++ ['>']) = false) :
    hasPre mu ((w2 ++ ['>']) ++ v) = false := by
  by_contra hcontra
  rw [Bool.not_eq_false] at hcontra
  by_cases hl : mu.length ≤ (w2 ++ ['>']).length
  · rw [hasPre_append_long mu (w2 ++ ['>']) v hl] at hcontra
    rw [hasPre_occurs mu _ hcontra] at hocc
    exact absurd hocc (by simp)
  · push_neg at hl
    obtain ⟨h1, _⟩ := hasPre_append_short (w2 ++ ['>']) mu v hl hcontra
    have hlast : (mu.take (w2 ++ ['>']).length).getLastD 'x' = '>' := by
      rw [← h1, getLastD_append_singleton]
    have hne : (mu.take (w2 ++ ['>']).length).getLastD 'x' ≠ '>' := by
      rcases hmu with rfl | rfl
      · exact mOpen_take_last _ (by simpa using hl)
      · exact mClose_take_last _ (by simpa using hl)
    exact hne hlast

theorem stripSafeTag : ∀ (w2 v : List Char),
    occursIn mOpen (w2 ++ ['>']) = false → occursIn mClose (w2 ++ ['>']) = false →
    stripMarks ((w2 ++ ['>']) ++ v) = (w2 ++ ['>']) ++ stripMarks v := by
  intro w2
  induction w2 with
  | nil =>
    intro v _ _
    simp only [List.nil_append, List.singleton_append]
    rw [stripMarks_cons '>' v (by simp [mOpen, hasPre]) (by simp [mClose, hasPre])]
  | cons c w2b ih =>
    intro v h1 h2
    have k1 : hasPre mOpen (((c :: w2b) ++ ['>']) ++ v) = false :=
      no_marker_pre_gt mOpen (c :: w2b) v (Or.inl rfl) h1
    have k2 : hasPre mClose (((c :: w2b) ++ ['>']) ++ v) = false :=
      no_marker_pre_gt mClose (c :: w2b) v (Or.inr rfl) h2
    rw [List.cons_append, List.cons_append] at k1 k2 ⊢
    rw [stripMarks_cons c ((w2b ++ ['>']) ++ v) k1 k2,
      ih v (noOcc_cons c mOpen _ (by rwa [List.cons_append] at h1))
        (noOcc_cons c mClose _ (by rwa [List.cons_append] at h2))]
    rfl

theorem hasPre_self_append (p b : List Char) : hasPre p (p ++ b) = true := by
  induction p with
  | nil => rfl
  | cons c p2 ih => simp [hasPre, ih]

theorem strip_mOpen_consume (X : List Char) : stripMarks (mOpen ++ X) = stripMarks X := by
  rw [stripMarks_open (mOpen ++ X) (hasPre_self_append mOpen X)]
  congr 1

theorem strip_mClose_consume (X : List Char) : stripMarks (mClose ++ X) = stripMarks X := by
  have h1 : hasPre mOpen (mClose ++ X) = false := by
    simp [mOpen, mClose, hasPre]
  rw [stripMarks_close (mClose ++ X) h1 (hasPre_self_append mClose X)]
  congr 1

/-- Decomposition of the replacer's output: either no match (the input is
returned verbatim) or the input splits as unmatched prefix, first match, and
remainder, with the output wrapping the match in the markers. -/
theorem replaceLit_view (p : List Char) : ∀ s : List Char,
    replaceLit p s = s ∨
    ∃ u w s2, s = u ++ w ++ s2 ∧ w ≠ [] ∧
      replaceLit p s = u ++ (mOpen ++ w ++ mClose ++ replaceLit p s2) := by
  intro s
  induction s with
  | nil => exact Or.inl rfl
  | cons d ds ih =>
    by_cases hc : p ≠ [] ∧ lowerStr ((d :: ds).take p.length) = p
    · right
      refine ⟨[], (d :: ds).take p.length, (d :: ds).drop p.length,
        (List.take_append_drop p.length (d :: ds)).symm, ?_, ?_⟩
      · have hp : p.length ≠ 0 := by
          have := hc.1
          simpa using this
        obtain ⟨k, hk⟩ : ∃ k, p.length = k + 1 := ⟨p.length - 1, by omega⟩
        rw [hk, List.take_succ_cons]
        simp
      · rw [replaceLit_cons_match p d ds hc]
        simp [List.append_assoc]
    · rcases ih with heq | ⟨u, w, s2, hs, hw, heq⟩
      · left
        rw [replaceLit_cons_nomatch p d ds hc, heq]
      · right
        refine ⟨d :: u, w, s2, by rw [hs]; simp [List.append_assoc], hw, ?_⟩
        rw [replaceLit_cons_nomatch p d ds hc, heq]
        rfl

/-- Stripping the markers from a replaced chunk followed by a safe remainder
recovers the chunk's input. -/
theorem strip_replace_chunk (p : List Char) :
    ∀ (N : Nat) (s v : List Char), s.length ≤ N →
    occursIn mOpen s = false → occursIn mClose s = false →
    (v = [] ∨ hasPre (txt ("<")) v = true) →
    stripMarks (replaceLit p s ++ v) = s ++ stripMarks v := by
  intro N
  induction N with
  | zero =>
    intro s v hlen h1 h2 hv
    have hs : s = [] := List.length_eq_zero.mp (Nat.le_zero.mp hlen)
    subst hs
    simp only [List.nil_append]
    rfl
  | succ N2 ihN =>
    intro s v hlen h1 h2 hv
    rcases replaceLit_view p s with heq | ⟨u, w, s2, hs, hw, heq⟩
    · rw [heq]
      exact stripSafeAppend s v h1 h2 hv
    · rw [heq]
      subst hs
      rw [List.append_assoc] at h1 h2
      have hu1 : occursIn mOpen u = false := noOcc_left u mOpen _ h1
      have hu2 : occursIn mClose u = false := noOcc_left u mClose _ h2
      have hw1 : occursIn mOpen w = false :=
        noOcc_left w mOpen s2 (noOcc_right u mOpen (w ++ s2) h1)
      have hw2 : occursIn mClose w = false :=
        noOcc_left w mClose s2 (noOcc_right u mClose (w ++ s2) h2)
      have hs1 : occursIn mOpen s2 = false :=
        noOcc_right w mOpen s2 (noOcc_right u mOpen (w ++ s2) h1)
      have hs2 : occursIn mClose s2 = false :=
        noOcc_right w mClose s2 (noOcc_right u mClose (w ++ s2) h2)
      have hlen2 : s2.length ≤ N2 := by
        have hwl : 1 ≤ w.length := List.length_pos.mpr hw
        have : (u ++ w ++ s2).length = u.length + w.length + s2.length := by
          simp
          omega
        omega
      have step1 : stripMarks ((u ++ (mOpen ++ w ++ mClose ++ replaceLit p s2)) ++ v)
          = u ++ stripMarks ((mOpen ++ w ++ mClose ++ replaceLit p s2) ++ v) := by
        rw [List.append_assoc]
        exact stripSafeAppend u _ hu1 hu2
          (Or.inr (by simp [mOpen, txt, hasPre, List.append_assoc]))
      have step2 : stripMarks ((mOpen ++ w ++ mClose ++ replaceLit p s2) ++ v)
          = stripMarks (w ++ (mClose ++ (replaceLit p s2 ++ v))) := by
        have : (mOpen ++ w ++ mClose ++ replaceLit p s2) ++ v =
            mOpen ++ (w ++ (mClose ++ (replaceLit p s2 ++ v))) := by
          simp [List.append_assoc]
        rw [this, strip_mOpen_consume]
      have step3 : stripMarks (w ++ (mClose ++ (replaceLit p s2 ++ v)))
          = w ++ stripMarks (mClose ++ (replaceLit p s2 ++ v)) := by
        exact stripSafeAppend w _ hw1 hw2
          (Or.inr (by simp [mClose, txt, hasPre]))
      have step4 : stripMarks (mClose ++ (replaceLit p s2 ++ v))
          = stripMarks (replaceLit p s2 ++ v) := strip_mClose_consume _
      have step5 : stripMarks (replaceLit p s2 ++ v) = s2 ++ stripMarks v :=
        ihN s2 v hlen2 hs1 hs2 hv
      rw [step1, step2, step3, step4, step5]
      simp [List.append_assoc]

/-! Structure of the tag split: the parts alternate text, tag, text, ...,
ending in text, and concatenate back to the input. -/

/-- The alternating shape of `splitTags` output: a text part, then repeated
(tag, text) pairs, every tag of the form `<` + inner + `>`. -/
inductive PartsShape : List (List Char) → Prop
  | single (t : List Char) : PartsShape [t]
  | more (t a : List Char) (rest : List (List Char)) (h : PartsShape rest) :
      PartsShape (t :: (('<' :: a) ++ ['>']) :: rest)

theorem tagTake_eq : ∀ (cs a r : List Char), tagTake cs = some (a, r) →
    cs = a ++ '>' :: r := by
  intro cs
  induction cs with
  | nil => intro a r h; simp [tagTake] at h
  | cons c cs2 ih =>
    intro a r h
    simp only [tagTake] at h
    by_cases hc : c = '>'
    · rw [if_pos hc] at h
      simp only [Option.some.injEq, Prod.mk.injEq] at h
      rw [← h.1, ← h.2, hc]
      rfl
    · rw [if_neg hc] at h
      cases htag : tagTake cs2 with
      | none =>
        rw [htag] at h
        simp at h
      | some pr =>
        obtain ⟨a2, r2⟩ := pr
        rw [htag] at h
        simp only [Option.some.injEq, Prod.mk.injEq] at h
        rw [← h.1, ← h.2]
        rw [ih a2 r2 htag]
        rfl

theorem drop_append_cons : ∀ (a : List Char) (x : Char) (r : List Char),
    (a ++ x :: r).drop (a.length + 1) = r := by
  intro a
  induction a with
  | nil => intro x r; rfl
  | cons c a2 ih =>
    intro x r
    simp only [List.cons_append, List.length_cons]
    rw [show a2.length + 1 + 1 = (a2.length + 1) + 1 from rfl, List.drop_succ_cons]
    exact ih x r

theorem splitGo_skip : ∀ (n : Nat) (acc s : List Char),
    splitGo n acc s = splitGo 0 acc (s.drop n) := by
  intro n
  induction n with
  | zero => intro acc s; simp
  | succ n2 ih =>
    intro acc s
    cases s with
    | nil => rfl
    | cons c cs =>
      show splitGo n2 acc cs = splitGo 0 acc (cs.drop n2)
      exact ih acc cs

theorem splitGo_cons_eq (acc : List Char) (c : Char) (cs : List Char) :
    splitGo 0 acc (c :: cs) =
      if c = '<' then
        match tagTake cs with
        | some (a, _) =>
          if a = [] then splitGo 0 ('<' :: acc) cs
          else acc.reverse :: (('<' :: a) ++ ['>']) :: splitGo (a.length + 1) [] cs
        | none => splitGo 0 ('<' :: acc) cs
      else splitGo 0 (c :: acc) cs := rfl

theorem splitGo_join : ∀ (N : Nat) (s : List Char), s.length ≤ N →
    ∀ acc, joinL (splitGo 0 acc s) = acc.reverse ++ s := by
  intro N
  induction N with
  | zero =>
    intro s hlen acc
    have hs : s = [] := List.length_eq_zero.mp (Nat.le_zero.mp hlen)
    subst hs
    show joinL [acc.reverse] = acc.reverse ++ []
    simp [joinL]
  | succ N2 ih =>
    intro s hlen acc
    cases s with
    | nil =>
      show joinL [acc.reverse] = acc.reverse ++ []
      simp [joinL]
    | cons c cs =>
      rw [splitGo_cons_eq]
      by_cases hc : c = '<'
      · rw [if_pos hc]
        cases htag : tagTake cs with
        | none =>
          rw [ih cs (by simpa using hlen) ('<' :: acc)]
          subst hc
          simp
        | some pr =>
          obtain ⟨a, r⟩ := pr
          cases a with
          | nil =>
            show joinL (splitGo 0 ('<' :: acc) cs) = acc.reverse ++ c :: cs
            rw [ih cs (by simpa using hlen) ('<' :: acc)]
            subst hc
            simp
          | cons a0 as =>
            show joinL (acc.reverse :: (('<' :: (a0 :: as)) ++ ['>']) ::
              splitGo ((a0 :: as).length + 1) [] cs) = acc.reverse ++ c :: cs
            rw [splitGo_skip ((a0 :: as).length + 1) [] cs]
            have hcs := tagTake_eq cs (a0 :: as) r htag
            have hdrop : cs.drop ((a0 :: as).length + 1) = r := by
              rw [hcs]
              exact drop_append_cons (a0 :: as) '>' r
            rw [hdrop]
            simp only [joinL, List.foldr_cons]
            rw [show List.foldr (fun a b => a ++ b) [] (splitGo 0 [] r) =
              joinL (splitGo 0 [] r) from rfl]
            have hr : r.length ≤ N2 := by
              rw [hcs] at hlen
              simp only [List.length_cons, List.length_append] at hlen
              omega
            rw [ih r hr []]
            subst hc
            rw [hcs]
            simp [List.append_assoc]
      · rw [if_neg hc, ih cs (by simpa using hlen) (c :: acc)]
        simp

theorem splitGo_shape : ∀ (N : Nat) (s : List Char), s.length ≤ N →
    ∀ acc, PartsShape (splitGo 0 acc s) := by
  intro N
  induction N with
  | zero =>
    intro s hlen acc
    have hs : s = [] := List.length_eq_zero.mp (Nat.le_zero.mp hlen)
    subst hs
    exact PartsShape.single acc.reverse
  | succ N2 ih =>
    intro s hlen acc
    cases s with
    | nil => exact PartsShape.single acc.reverse
    | cons c cs =>
      rw [splitGo_cons_eq]
      by_cases hc : c = '<'
      · rw [if_pos hc]
        cases htag : tagTake cs with
        | none => exact ih cs (by simpa using hlen) ('<' :: acc)
        | some pr =>
          obtain ⟨a, r⟩ := pr
          cases a with
          | nil => exact ih cs (by simpa using hlen) ('<' :: acc)
          | cons a0 as =>
            show PartsShape (acc.reverse :: (('<' :: (a0 :: as)) ++ ['>']) ::
              splitGo ((a0 :: as).length + 1) [] cs)
            rw [splitGo_skip ((a0 :: as).length + 1) [] cs]
            refine PartsShape.more acc.reverse (a0 :: as) _ ?_
            have hcs := tagTake_eq cs (a0 :: as) r htag
            have hdrop : cs.drop ((a0 :: as).length + 1) = r := by
              rw [hcs]
              exact drop_append_cons (a0 :: as) '>' r
            rw [hdrop]
            have hr : r.length ≤ N2 := by
              rw [hcs] at hlen
              simp only [List.length_cons, List.length_append] at hlen
              omega
            exact ih r hr []
      · rw [if_neg hc]
        exact ih cs (by simpa using hlen) (c :: acc)

theorem mem_joinL_infix : ∀ (parts : List (List Char)) (x : List Char),
    x ∈ parts → ∃ u v, joinL parts = u ++ (x ++ v) := by
  intro parts
  induction parts with
  | nil => intro x h; simp at h
  | cons y rest ih =>
    intro x h
    rcases List.mem_cons.mp h with rfl | h2
    · exact ⟨[], joinL rest, by simp [joinL]⟩
    · obtain ⟨u, v, hjoin⟩ := ih x h2
      refine ⟨y ++ u, v, ?_⟩
      show y ++ joinL rest = (y ++ u) ++ (x ++ v)
      rw [hjoin, List.append_assoc]

theorem strip_join_parts (p : List Char) :
    ∀ (parts : List (List Char)), PartsShape parts →
    (∀ x ∈ parts, occursIn mOpen x = false ∧ occursIn mClose x = false) →
    stripMarks (joinL (parts.map (fun part =>
      if hasPre (txt ("<")) part then part else replaceLit p part))) = joinL parts := by
  intro parts hshape
  induction hshape with
  | single t =>
    intro hfree
    obtain ⟨h1, h2⟩ := hfree t (by simp)
    show stripMarks ((if hasPre (txt ("<")) t then t else replaceLit p t) ++ []) = t ++ []
    by_cases hpre : hasPre (txt ("<")) t = true
    · rw [if_pos hpre]
      exact stripSafeAppend t [] h1 h2 (Or.inl rfl)
    · rw [if_neg hpre]
      have := strip_replace_chunk p t.length t [] (le_refl _) h1 h2 (Or.inl rfl)
      rw [this]
      rfl
  | more t a rest hrest ih =>
    intro hfree
    obtain ⟨ht1, ht2⟩ := hfree t (by simp)
    obtain ⟨hg1, hg2⟩ := hfree (('<' :: a) ++ ['>']) (by simp)
    have hfree2 : ∀ x ∈ rest, occursIn mOpen x = false ∧ occursIn mClose x = false :=
      fun x hx => hfree x (by simp [hx])
    have htagpre : hasPre (txt ("<")) (('<' :: a) ++ ['>']) = true := by
      simp [txt, hasPre]
    show stripMarks ((if hasPre (txt ("<")) t then t else replaceLit p t) ++
        ((if hasPre (txt ("<")) (('<' :: a) ++ ['>']) then (('<' :: a) ++ ['>'])
          else replaceLit p (('<' :: a) ++ ['>'])) ++
          joinL (rest.map (fun part =>
            if hasPre (txt ("<")) part then part else replaceLit p part)))) =
      t ++ ((('<' :: a) ++ ['>']) ++ joinL rest)
    rw [if_pos htagpre]
    set R := joinL (rest.map (fun part =>
      if hasPre (txt ("<")) part then part else replaceLit p part)) with hR
    have hnext : hasPre (txt ("<")) ((('<' :: a) ++ ['>']) ++ R) = true := by
      simp [txt, hasPre]
    have step1 : stripMarks ((if hasPre (txt ("<")) t then t else replaceLit p t) ++
        ((('<' :: a) ++ ['>']) ++ R)) = t ++ stripMarks ((('<' :: a) ++ ['>']) ++ R) := by
      by_cases hpre : hasPre (txt ("<")) t = true
      · rw [if_pos hpre]
        exact stripSafeAppend t _ ht1 ht2 (Or.inr hnext)
      · rw [if_neg hpre]
        exact strip_replace_chunk p t.length t _ (le_refl _) ht1 ht2 (Or.inr hnext)
    have step2 : stripMarks ((('<' :: a) ++ ['>']) ++ R) =
        (('<' :: a) ++ ['>']) ++ stripMarks R := by
      have := stripSafeTag ('<' :: a) R hg1 hg2
      simpa using this
    rw [step1, step2, ih hfree2]

/-- C6 (amended): provided the markup itself contains neither highlight
marker, removing all highlight markers from `highlight(markup, q)` yields
back exactly `markup`, for every query: highlighting wraps occurrences only
inside text regions and leaves tag regions verbatim. -/
theorem highlight_strip_roundtrip (markup q : List Char)
    (h1 : occursIn mOpen markup = false) (h2 : occursIn mClose markup = false) :
    stripMarks (highlightHtml markup q) = markup := by
  rw [highlightHtml.eq_def]
  split
  · exact strip_id markup h1 h2
  · rename_i qc qrest _
    have hjoin : joinL (splitTags markup) = markup := by
      have := splitGo_join markup.length markup (le_refl _) []
      simpa [splitTags] using this
    have hshape : PartsShape (splitTags markup) :=
      splitGo_shape markup.length markup (le_refl _) []
    have hfree : ∀ x ∈ splitTags markup,
        occursIn mOpen x = false ∧ occursIn mClose x = false := by
      intro x hx
      obtain ⟨u, v, hx2⟩ := mem_joinL_infix (splitTags markup) x hx
      rw [hjoin] at hx2
      subst hx2
      constructor
      · exact noOcc_left x mOpen v (noOcc_right u mOpen (x ++ v) h1)
      · exact noOcc_left x mClose v (noOcc_right u mClose (x ++ v) h2)
    have := strip_join_parts (interpEsc (escapeRegex (qc :: qrest)))
      (splitTags markup) hshape hfree
    rw [this, hjoin]

/-- C6 (counterexample): when the markup already contains the marker tokens,
stripping the highlighted output does not return the markup, so the claim as
frozen (quantified over every markup string) fails. -/
theorem highlight_strip_counterexample :
    stripMarks (highlightHtml (txt ("<mark>a</mark>")) (txt ("x"))) ≠
      txt ("<mark>a</mark>") := by
  decide

/-- C6 (witness): the round trip evaluated on marker-free markup, both
hypotheses discharged concretely. -/
theorem highlight_strip_roundtrip_witness :
    stripMarks (highlightHtml (txt ("<p>hi there</p>")) (txt ("h"))) =
      txt ("<p>hi there</p>") :=
  highlight_strip_roundtrip (txt ("<p>hi there</p>")) (txt ("h"))
    (by decide) (by decide)

/-! ## Snippet extraction (`snippetAroundIndex`, `src/app.js:366-371`;
claim C9) -/

/-- `raw.replace(/\s+/g, " ")`: collapse every whitespace run to a single
space; the flag records whether the previous character was whitespace. -/
def collapseWsGo (prevWs : Bool) : List Char → List Char
  | [] => []
  | c :: cs =>
    if isJsWs c then
      if prevWs then collapseWsGo true cs else ' ' :: collapseWsGo true cs
    else c :: collapseWsGo false cs

def collapseWs (s : List Char) : List Char := collapseWsGo false s

/-- `snippetAroundIndex` from `src/app.js:366`: the slice of `text` from
`max(0, idx - 40)` to `min(text.length, idx + len + 40)` with whitespace
runs collapsed, truncated to 137 characters plus an ellipsis when the
collapsed slice exceeds 140 characters.  (Nat subtraction realizes the
`Math.max(0, ...)` clamp.) -/
def snippetAroundIndex (text : List Char) (idx len : Nat) : List Char :=
  let start := idx - 40
  let stop := min text.length (idx + len + 40)
  let raw := collapseWs ((text.take stop).drop start)
  if 140 < raw.length then raw.take 137 ++ [Char.ofNat 8230] else raw

/-- `String.prototype.replaceAll` with literal pattern and replacement:
leftmost, non-overlapping, case-sensitive; skip-counter recursion. -/
def replAllGo (pat rep : List Char) : Nat → List Char → List Char
  | n + 1, _ :: cs => replAllGo pat rep n cs
  | _, [] => []
  | 0, d :: ds =>
    if pat ≠ [] ∧ (d :: ds).take pat.length = pat then
      rep ++ replAllGo pat rep (pat.length - 1) ds
    else d :: replAllGo pat rep 0 ds

def replaceAllL (pat rep s : List Char) : List Char := replAllGo pat rep 0 s

/-- `escapeHtml` from `src/app.js:41`: the five `replaceAll` steps in source
order (`&`, `<`, `>`, `"`, apostrophe). -/
def escapeHtml (s : List Char) : List Char :=
  replaceAllL ['\''] (txt ("&#039;"))
    (replaceAllL ['"'] (txt ("&quot;"))
      (replaceAllL ['>'] (txt ("&gt;"))
        (replaceAllL ['<'] (txt ("&lt;"))
          (replaceAllL ['&'] (txt ("&amp;")) s))))

/-- Index of the first case-insensitive occurrence of the (lowercased)
query, as used by the claim's snippet description. -/
def findFirstCI (q : List Char) : List Char → Option Nat
  | [] => none
  | d :: ds =>
    if lowerStr ((d :: ds).take q.length) = q then some 0
    else (findFirstCI q ds).map (fun i => i + 1)

/-- The snippet the claim describes: locate the first case-insensitive
occurrence; empty when absent; otherwise the original-case window of 40
characters before and after the match clamped to bounds, each of the three
pieces HTML-escaped, the match wrapped in the highlight marker, and an
ellipsis appended when the window did not reach the end of the text. -/
def snippetSpecC9 (text q : List Char) : List Char :=
  match findFirstCI (normalizeQuery q) text with
  | none => []
  | some i =>
    let len := (normalizeQuery q).length
    let start := i - 40
    let stop := min text.length (i + len + 40)
    let pre := (text.take i).drop start
    let mid := (text.take (min text.length (i + len))).drop i
    let suf := (text.take stop).drop (i + len)
    escapeHtml pre ++ mOpen ++ escapeHtml mid ++ mClose ++ escapeHtml suf ++
      (if stop < text.length then [Char.ofNat 8230] else [])

/-- C9 (counterexample): at the first occurrence of the query "b" in the
text "a<b", the code returns the raw window "a<b" with no escaping, no
highlight wrapper, and no occurrence search of its own, not the escaped
marked snippet the claim describes. -/
theorem snippet_counterexample :
    findFirstCI (normalizeQuery (txt ("b"))) (txt ("a<b")) = some 2 ∧
    snippetAroundIndex (txt ("a<b")) 2 1 = txt ("a<b") ∧
    snippetAroundIndex (txt ("a<b")) 2 1 ≠ snippetSpecC9 (txt ("a<b")) (txt ("b")) := by
  decide

/-- C9 (amended): `snippetAroundIndex` takes a match index and length from
its caller; it returns the whitespace-collapsed window of the original-case
text spanning 40 characters before the match and 40 after its end, clamped
to the text bounds, truncated to 137 characters plus an ellipsis character
when the collapsed window exceeds 140 characters; it performs no searching,
no escaping and no highlight wrapping. -/
theorem snippet_around_index_law (text : List Char) (idx len : Nat) :
    snippetAroundIndex text idx len =
      (if (collapseWs ((text.drop (idx - 40)).take
            (min text.length (idx + len + 40) - (idx - 40)))).length ≤ 140 then
        collapseWs ((text.drop (idx - 40)).take
          (min text.length (idx + len + 40) - (idx - 40)))
      else
        (collapseWs ((text.drop (idx - 40)).take
          (min text.length (idx + len + 40) - (idx - 40)))).take 137 ++
          [Char.ofNat 8230]) := by
  simp only [snippetAroundIndex]
  rw [List.drop_take]
  by_cases h : 140 <
      (collapseWs ((text.drop (idx - 40)).take
        (min text.length (idx + len + 40) - (idx - 40)))).length
  · rw [if_pos h, if_neg (by omega)]
  · rw [if_neg h, if_pos (by omega)]

end PowerCycleSummary
